import Mathlib

/-!
Verification of the client-side pipeline/DAG construction and execution engine
of the DAGed AIRR preprocessing front end.

The definitions below are a shallow embedding of the JavaScript sources:
* `src/ui/assets/js/bulk.js`  — the DAG pipeline model (`DAG_STATE`, `UNIT_META`,
  `CHANNEL_ARTIFACTS`, `addNode`, `removeNode`, `connectNodes`, `topoOrder`,
  `ensureNodeDefaults`, `recordChannelArtifacts`, ...);
* `src/ui/assets/js/script.js` — validation and the execution drivers
  (`validateDagPipeline`, `runLinearPipeline`, `runDagPipeline`);
* `src/ui/assets/js/sc.js`    — the linear flow model (`FLOW`, `validateFlow`,
  `runFlow`).

JavaScript objects used as string-keyed maps are embedded as association lists
in key-insertion order (the iteration order of `Object.keys`/`Object.values`
for non-numeric string keys).  JavaScript numbers that only occur as opaque
parameter defaults are embedded as `Rat`.  External effects (the backend `run`
call) are embedded as explicit outcome oracles, and the resolution order of
concurrently in-flight `run` promises is an explicit schedule parameter.
-/

namespace Presto

/-- A channel-carrying directed edge, `{from, to, channels}` in `bulk.js`
(`DAG_STATE.edges`).  The JS fields `from`/`to` are Lean keywords, hence `from_`/`to_`. -/
structure Edge where
  from_ : String
  to_ : String
  channels : List String
deriving DecidableEq

/-- An entry of a node's `incoming` list: `{node, label, channels}`
(see `connectNodes` in `bulk.js`). -/
structure IncomingEntry where
  node : String
  label : String
  channels : List String
deriving DecidableEq

/-- A JavaScript parameter value: string defaults and user inputs, or numeric
defaults (e.g. `min_quality: 20`, `max_error: 0.3`). -/
inductive PVal where
  | str (s : String)
  | num (q : Rat)
deriving DecidableEq

/-- A parameter descriptor from `UNIT_META[...].params` in `bulk.js`; only the
fields the model operations read (`key`, `default`).  A missing `default` is
`none` (JS `undefined`). -/
structure ParamDef where
  key : String
  default? : Option PVal
deriving DecidableEq

/-- One DAG input selection record `{id, file, channel}` (stored by `addNode`
as `selectedInputs`, never read back by the model operations). -/
structure Selection where
  id : String
  file : String
  channel : String
deriving DecidableEq

/-- Unit metadata (one value of `UNIT_META` in `bulk.js`).  `inputs` is only
used for form rendering and is omitted; `branchTarget = none` embeds a missing
`branchTarget` property, and `dynamicBranch = false` a missing `dynamicBranch`. -/
structure UnitMeta where
  label : String
  consumes : List String
  produces : List String
  branches : List String
  dynamicBranch : Bool
  params : List ParamDef
  branchTarget : Option String
deriving DecidableEq

/-- A DAG node as built by `addNode` in `bulk.js`.  `status` is the literal JS
status string (`"idle"`, `"running"`, `"done"`, `"error"`, `"blocked"`). -/
structure DagNode where
  id : String
  unitId : String
  label : String
  branch : String
  consumes : List String
  produces : List String
  params : List (String × PVal)
  incoming : List IncomingEntry
  status : String
  selectedInputs : List Selection
  order : Nat
deriving DecidableEq

/-- One value of `CHANNEL_ARTIFACTS`: `{nodeId, label, value}`
(see `recordChannelArtifacts` in `bulk.js`). -/
structure ChannelArtifact where
  nodeId : String
  label : String
  value : String
deriving DecidableEq

/-- The mutable module state of `bulk.js`: `DAG_STATE` (nodes keyed by id in
insertion order, and the edge list), `UNIT_META`, `CHANNEL_ARTIFACTS` and
`NODE_COUNTER`. -/
structure DagModel where
  nodes : List DagNode
  edges : List Edge
  unitMeta : List (String × UnitMeta)
  channelArtifacts : List (String × ChannelArtifact)
  nodeCounter : Nat
deriving DecidableEq

/-- First-occurrence lookup in an association list (JS property access on an
object with unique keys). -/
def alookup {β : Type} (l : List (String × β)) (k : String) : Option β :=
  (l.find? (fun p => p.1 = k)).map (fun p => p.2)

/-- `Object.keys(DAG_STATE.nodes)` for a node list. -/
def idsOf (ns : List DagNode) : List String := ns.map (fun n => n.id)

/-- Find a node by id (`DAG_STATE.nodes[id]`). -/
def lookupNode (ns : List DagNode) (id : String) : Option DagNode :=
  ns.find? (fun n => n.id = id)

/-! ### `topoOrder` (bulk.js lines 514–534)

Kahn's algorithm over the current nodes and edges, written exactly as the JS:
an indegree map over node ids, a FIFO queue seeded with zero-indegree ids, and
edge relaxation when an id is popped; `none` is returned when fewer ids were
ordered than nodes exist. -/

/-- `indegree[edge.to_]++` when the key exists (`indegree[to] !== undefined`). -/
def incKey : List (String × Int) → String → List (String × Int)
  | [], _ => []
  | (k, v) :: rest, key =>
    if k = key then (k, v + 1) :: rest else (k, v) :: incKey rest key

/-- The initial indegree map: every node id bound to 0, then incremented once
per edge whose target is a node id. -/
def initIndeg (ids : List String) (edges : List Edge) : List (String × Int) :=
  edges.foldl (fun m e => incKey m e.to_) (ids.map (fun id => (id, (0 : Int))))

/-- `indegree[edge.to_]--`, returning the updated map together with the new
value when the key exists (`none` embeds the JS `undefined-- = NaN` case, which
never compares equal to 0). -/
def decKey : List (String × Int) → String → List (String × Int) × Option Int
  | [], _ => ([], none)
  | (k, v) :: rest, key =>
    if k = key then ((k, v - 1) :: rest, some (v - 1))
    else
      let r := decKey rest key
      ((k, v) :: r.1, r.2)

/-- The inner `DAG_STATE.edges.forEach` of the `topoOrder` loop: for each edge
leaving the popped id `n`, decrement the target's indegree and enqueue the
target when the decremented value is exactly 0. -/
def relaxEdges (n : String) :
    List Edge → List (String × Int) → List String → List (String × Int) × List String
  | [], indeg, queue => (indeg, queue)
  | e :: es, indeg, queue =>
    if e.from_ = n then
      let d := decKey indeg e.to_
      relaxEdges n es d.1 (if d.2 = some 0 then queue ++ [e.to_] else queue)
    else
      relaxEdges n es indeg queue

/-- The number of strictly positive values in an indegree map; together with
the queue length this bounds the remaining iterations of the `while` loop. -/
def countPos (l : List (String × Int)) : Nat :=
  (l.filter (fun p => 0 < p.2)).length

/-- The `while(queue.length)` loop of `topoOrder`, with an explicit fuel.
`kahnLoop` below supplies fuel that provably never runs out
(`kahnLoopF_fuel_enough`), so this is the JS loop, which always terminates. -/
def kahnLoopF (edges : List Edge) :
    Nat → List String → List (String × Int) → List String → List String
  | 0, _, _, order => order
  | _ + 1, [], _, order => order
  | fuel + 1, n :: queue, indeg, order =>
    let r := relaxEdges n edges indeg queue
    kahnLoopF edges fuel r.2 r.1 (order ++ [n])

/-- The `while(queue.length)` loop of `topoOrder`. -/
def kahnLoop (edges : List Edge) (queue : List String) (indeg : List (String × Int))
    (order : List String) : List String :=
  kahnLoopF edges (queue.length + countPos indeg) queue indeg order

/-- `topoOrder()` over a node list and edge list: Kahn's algorithm; `none` is
the cycle signal (`return null`). -/
def topoOrderOn (ns : List DagNode) (edges : List Edge) : Option (List String) :=
  let indeg := initIndeg (idsOf ns) edges
  let queue := (indeg.map (fun p => p.1)).filter (fun id => alookup indeg id = some 0)
  let ord := kahnLoop edges queue indeg []
  if ord.length = (idsOf ns).length then some ord else none

/-- `topoOrder()` on the current model state. -/
def topoOrder (m : DagModel) : Option (List String) :=
  topoOrderOn m.nodes m.edges


/-! ### Association-list helper lemmas -/

theorem alookup_cons {β : Type} (k : String) (v : β) (rest : List (String × β)) (x : String) :
    alookup ((k, v) :: rest) x = if k = x then some v else alookup rest x := by
  by_cases h : k = x
  · simp [alookup, List.find?_cons_of_pos, h]
  · simp only [alookup, if_neg h]
    rw [List.find?_cons_of_neg]
    simp [h]

theorem alookup_eq_none_iff {β : Type} (l : List (String × β)) (x : String) :
    alookup l x = none ↔ x ∉ l.map Prod.fst := by
  induction l with
  | nil => simp [alookup]
  | cons p rest ih =>
    obtain ⟨k, v⟩ := p
    rw [alookup_cons]
    by_cases h : k = x
    · simp [h]
    · simp [h, Ne.symm h, ih]

theorem alookup_some_mem_keys {β : Type} {l : List (String × β)} {x : String} {v : β}
    (h : alookup l x = some v) : x ∈ l.map Prod.fst := by
  by_contra hx
  rw [← alookup_eq_none_iff] at hx
  rw [hx] at h
  exact Option.noConfusion h

theorem alookup_isSome_of_mem_keys {β : Type} {l : List (String × β)} {x : String}
    (h : x ∈ l.map Prod.fst) : ∃ v, alookup l x = some v := by
  cases hv : alookup l x with
  | none => exact absurd h ((alookup_eq_none_iff l x).mp hv)
  | some v => exact ⟨v, rfl⟩

theorem alookup_map_const (ids : List String) (c : Int) (x : String) :
    alookup (ids.map (fun id => (id, c))) x = if x ∈ ids then some c else none := by
  induction ids with
  | nil => simp [alookup]
  | cons i rest ih =>
    rw [List.map_cons, alookup_cons]
    by_cases h : i = x
    · simp [h]
    · simp [h, Ne.symm h, ih]

/-! ### `incKey` and `initIndeg` lemmas -/

theorem incKey_keys (l : List (String × Int)) (k : String) :
    (incKey l k).map Prod.fst = l.map Prod.fst := by
  induction l with
  | nil => simp [incKey]
  | cons p rest ih =>
    obtain ⟨k1, v1⟩ := p
    by_cases h : k1 = k <;> simp [incKey, h, ih]

theorem incKey_lookup_self (l : List (String × Int)) (k : String) (v : Int)
    (h : alookup l k = some v) : alookup (incKey l k) k = some (v + 1) := by
  induction l with
  | nil => simp [alookup] at h
  | cons p rest ih =>
    obtain ⟨k1, v1⟩ := p
    rw [alookup_cons] at h
    by_cases hk : k1 = k
    · rw [if_pos hk] at h
      obtain rfl : v1 = v := Option.some_injective _ h
      simp [incKey, hk, alookup_cons]
    · rw [if_neg hk] at h
      simp only [incKey, if_neg hk]
      rw [alookup_cons, if_neg hk]
      exact ih h

theorem incKey_lookup_ne (l : List (String × Int)) (k x : String) (h : x ≠ k) :
    alookup (incKey l k) x = alookup l x := by
  induction l with
  | nil => simp [incKey]
  | cons p rest ih =>
    obtain ⟨k1, v1⟩ := p
    by_cases hk : k1 = k
    · subst hk
      have hstep : incKey ((k1, v1) :: rest) k1 = (k1, v1 + 1) :: rest := by simp [incKey]
      rw [hstep, alookup_cons, alookup_cons,
        if_neg (fun hh => h hh.symm), if_neg (fun hh => h hh.symm)]
    · simp only [incKey, if_neg hk]
      rw [alookup_cons, alookup_cons]
      by_cases hx : k1 = x
      · simp [hx]
      · rw [if_neg hx, if_neg hx]
        exact ih

theorem incKey_of_none (l : List (String × Int)) (k : String) (h : alookup l k = none) :
    incKey l k = l := by
  induction l with
  | nil => simp [incKey]
  | cons p rest ih =>
    obtain ⟨k1, v1⟩ := p
    rw [alookup_cons] at h
    by_cases hk : k1 = k
    · rw [if_pos hk] at h
      exact Option.noConfusion h
    · rw [if_neg hk] at h
      simp [incKey, hk, ih h]

/-! ### `decKey` lemmas -/

theorem decKey_keys (l : List (String × Int)) (k : String) :
    (decKey l k).1.map Prod.fst = l.map Prod.fst := by
  induction l with
  | nil => simp [decKey]
  | cons p rest ih =>
    obtain ⟨k1, v1⟩ := p
    by_cases h : k1 = k <;> simp [decKey, h, ih]

theorem decKey_lookup_ne (l : List (String × Int)) (k x : String) (h : x ≠ k) :
    alookup (decKey l k).1 x = alookup l x := by
  induction l with
  | nil => simp [decKey]
  | cons p rest ih =>
    obtain ⟨k1, v1⟩ := p
    by_cases hk : k1 = k
    · subst hk
      have hstep : decKey ((k1, v1) :: rest) k1 = ((k1, v1 - 1) :: rest, some (v1 - 1)) := by
        simp [decKey]
      rw [hstep]
      rw [alookup_cons, alookup_cons, if_neg (fun hh => h hh.symm), if_neg (fun hh => h hh.symm)]
    · simp only [decKey, if_neg hk]
      rw [alookup_cons, alookup_cons]
      by_cases hx : k1 = x
      · simp [hx]
      · rw [if_neg hx, if_neg hx]
        exact ih

theorem decKey_lookup_self (l : List (String × Int)) (k : String) (v : Int)
    (h : alookup l k = some v) :
    alookup (decKey l k).1 k = some (v - 1) ∧ (decKey l k).2 = some (v - 1) := by
  induction l with
  | nil => simp [alookup] at h
  | cons p rest ih =>
    obtain ⟨k1, v1⟩ := p
    rw [alookup_cons] at h
    by_cases hk : k1 = k
    · rw [if_pos hk] at h
      obtain rfl : v1 = v := Option.some_injective _ h
      subst hk
      simp [decKey, alookup_cons]
    · rw [if_neg hk] at h
      simp only [decKey, if_neg hk]
      rw [alookup_cons, if_neg hk]
      exact ih h

theorem decKey_of_none (l : List (String × Int)) (k : String) (h : alookup l k = none) :
    decKey l k = (l, none) := by
  induction l with
  | nil => simp [decKey]
  | cons p rest ih =>
    obtain ⟨k1, v1⟩ := p
    rw [alookup_cons] at h
    by_cases hk : k1 = k
    · rw [if_pos hk] at h
      exact Option.noConfusion h
    · rw [if_neg hk] at h
      simp [decKey, hk, ih h]

theorem countPos_cons (k : String) (v : Int) (rest : List (String × Int)) :
    countPos ((k, v) :: rest) = (if 0 < v then 1 else 0) + countPos rest := by
  by_cases h : (0 : Int) < v <;> simp [countPos, List.filter_cons, h] <;> omega

theorem decKey_countPos (l : List (String × Int)) (k : String) :
    countPos (decKey l k).1 + (if (decKey l k).2 = some 0 then 1 else 0) ≤ countPos l := by
  induction l with
  | nil => simp [decKey, countPos]
  | cons p rest ih =>
    obtain ⟨k1, v1⟩ := p
    by_cases hk : k1 = k
    · simp only [decKey, if_pos hk]
      rw [countPos_cons, countPos_cons]
      by_cases h0 : v1 - 1 = 0
      · have h1 : v1 = 1 := by omega
        subst h1
        norm_num
        omega
      · have hne : ¬ (some (v1 - 1) = some (0 : Int)) := by
          intro hs
          exact h0 (Option.some_injective _ hs)
        simp only [if_neg hne]
        by_cases hp : (0 : Int) < v1
        · by_cases hp' : (0 : Int) < v1 - 1 <;> simp [hp, hp'] <;> omega
        · have hp' : ¬ (0 : Int) < v1 - 1 := by omega
          simp [hp, hp']
    · simp only [decKey, if_neg hk]
      rw [countPos_cons, countPos_cons]
      omega

/-! ### `relaxEdges` lemmas -/

/-- The number of edges from `n` to `x` in an edge list, as an integer. -/
def cntE (n : String) (es : List Edge) (x : String) : Int :=
  ((es.filter (fun e => e.from_ = n ∧ e.to_ = x)).length : Int)

theorem cntE_nil (n x : String) : cntE n [] x = 0 := rfl

theorem cntE_nonneg (n : String) (es : List Edge) (x : String) : 0 ≤ cntE n es x := by
  simp [cntE]

theorem cntE_cons (n : String) (e : Edge) (es : List Edge) (x : String) :
    cntE n (e :: es) x = (if e.from_ = n ∧ e.to_ = x then 1 else 0) + cntE n es x := by
  by_cases h : e.from_ = n ∧ e.to_ = x <;> simp [cntE, List.filter_cons, h] <;> omega

/-- Whether the inner edge loop for popped id `n` pushes `x` onto the queue:
its indegree is currently positive and at least that many `n → x` edges exist. -/
def pushedB (n : String) (es : List Edge) (indeg : List (String × Int)) (x : String) : Bool :=
  match alookup indeg x with
  | some v => decide (0 < v ∧ v ≤ cntE n es x)
  | none => false

theorem pushedB_nil (n : String) (indeg : List (String × Int)) (x : String) :
    pushedB n [] indeg x = false := by
  unfold pushedB
  cases alookup indeg x with
  | none => rfl
  | some v =>
    rw [cntE_nil]
    simp only [decide_eq_false_iff_not]
    omega

theorem relaxEdges_spec (n : String) :
    ∀ (es : List Edge) (indeg : List (String × Int)) (queue : List String),
      ((relaxEdges n es indeg queue).1.map Prod.fst = indeg.map Prod.fst)
      ∧ (∀ x v, alookup indeg x = some v →
          alookup (relaxEdges n es indeg queue).1 x = some (v - cntE n es x))
      ∧ (∀ x, alookup indeg x = none → alookup (relaxEdges n es indeg queue).1 x = none)
      ∧ (∀ x, (relaxEdges n es indeg queue).2.count x =
          queue.count x + (if pushedB n es indeg x then 1 else 0))
      ∧ (∃ pushes, (relaxEdges n es indeg queue).2 = queue ++ pushes) := by
  intro es
  induction es with
  | nil =>
    intro indeg queue
    refine ⟨rfl, ?_, fun x h => h, ?_, ⟨[], by simp [relaxEdges]⟩⟩
    · intro x v h
      simpa [relaxEdges, cntE_nil] using h
    · intro x
      simp [relaxEdges, pushedB_nil]
  | cons e es ih =>
    intro indeg queue
    by_cases hfrom : e.from_ = n
    · cases hl : alookup indeg e.to_ with
      | none =>
        -- JS: indegree[edge.to] is undefined; decrement is a no-op and never pushes
        have hdec : decKey indeg e.to_ = (indeg, none) := decKey_of_none _ _ hl
        have hrw : relaxEdges n (e :: es) indeg queue = relaxEdges n es indeg queue := by
          simp [relaxEdges, hfrom, hdec]
        rw [hrw]
        obtain ⟨hkeys, hsome, hnone, hcount, hpush⟩ := ih indeg queue
        refine ⟨hkeys, ?_, hnone, ?_, hpush⟩
        · intro x v h
          have hx : ¬ (e.to_ = x) := by
            intro hxx
            rw [← hxx, hl] at h
            exact Option.noConfusion h
          rw [hsome x v h, cntE_cons, if_neg (fun hc => hx hc.2), zero_add]
        · intro x
          rw [hcount x]
          by_cases hx : e.to_ = x
          · have hpb : pushedB n (e :: es) indeg x = pushedB n es indeg x := by
              unfold pushedB
              rw [← hx, hl]
            rw [hpb]
          · have hpb : pushedB n (e :: es) indeg x = pushedB n es indeg x := by
              unfold pushedB
              rw [cntE_cons, if_neg (fun hc => hx hc.2), zero_add]
            rw [hpb]
      | some v =>
        have hdec1 : alookup (decKey indeg e.to_).1 e.to_ = some (v - 1) :=
          (decKey_lookup_self _ _ _ hl).1
        have hdec2 : (decKey indeg e.to_).2 = some (v - 1) :=
          (decKey_lookup_self _ _ _ hl).2
        have hrw : relaxEdges n (e :: es) indeg queue =
            relaxEdges n es (decKey indeg e.to_).1
              (if (decKey indeg e.to_).2 = some 0 then queue ++ [e.to_] else queue) := by
          simp [relaxEdges, hfrom]
        rw [hrw]
        set d1 := (decKey indeg e.to_).1 with hd1
        set queue2 : List String :=
          if (decKey indeg e.to_).2 = some 0 then queue ++ [e.to_] else queue with hq2
        obtain ⟨hkeys, hsome, hnone, hcount, hpush⟩ := ih d1 queue2
        have hdkeys : d1.map Prod.fst = indeg.map Prod.fst := by
          rw [hd1]
          exact decKey_keys _ _
        have hq2cases : (v - 1 = 0 ∧ queue2 = queue ++ [e.to_]) ∨
            (¬ (v - 1 = 0) ∧ queue2 = queue) := by
          by_cases h1 : v - 1 = 0
          · refine Or.inl ⟨h1, ?_⟩
            rw [hq2, hdec2, h1]
            simp
          · refine Or.inr ⟨h1, ?_⟩
            rw [hq2, hdec2, if_neg (fun hs => h1 (Option.some_injective _ hs))]
        refine ⟨hkeys.trans hdkeys, ?_, ?_, ?_, ?_⟩
        · intro x w h
          by_cases hx : e.to_ = x
          · subst hx
            obtain rfl : v = w := by
              rw [hl] at h
              exact Option.some_injective _ h
            rw [hsome _ _ hdec1, cntE_cons, if_pos ⟨hfrom, rfl⟩]
            congr 1
            omega
          · have hlx : alookup d1 x = some w := by
              rw [hd1, decKey_lookup_ne _ _ _ (fun hxx => hx hxx.symm)]
              exact h
            rw [hsome x w hlx, cntE_cons, if_neg (fun hc => hx hc.2), zero_add]
        · intro x h
          have hx : ¬ (e.to_ = x) := by
            intro hxx
            rw [← hxx, hl] at h
            exact Option.noConfusion h
          refine hnone x ?_
          rw [hd1, decKey_lookup_ne _ _ _ (fun hxx => hx hxx.symm)]
          exact h
        · intro x
          rw [hcount x]
          by_cases hx : e.to_ = x
          · subst hx
            rcases hq2cases with ⟨h1, hq⟩ | ⟨h1, hq⟩
            · have hpbL : pushedB n es d1 e.to_ = false := by
                unfold pushedB
                rw [hdec1, h1]
                simp
              have hpbR : pushedB n (e :: es) indeg e.to_ = true := by
                unfold pushedB
                rw [hl, cntE_cons, if_pos ⟨hfrom, rfl⟩]
                have hc := cntE_nonneg n es e.to_
                simp only [decide_eq_true_eq]
                omega
              rw [hpbL, hpbR, hq, List.count_append]
              simp [List.count_cons]
            · have hpb : pushedB n es d1 e.to_ = pushedB n (e :: es) indeg e.to_ := by
                unfold pushedB
                rw [hdec1, hl, cntE_cons, if_pos ⟨hfrom, rfl⟩]
                rw [decide_eq_decide]
                have hc := cntE_nonneg n es e.to_
                constructor <;> intro hh <;> omega
              rw [hpb, hq]
          · have hqc : queue2.count x = queue.count x := by
              rcases hq2cases with ⟨h1, hq⟩ | ⟨h1, hq⟩
              · rw [hq, List.count_append]
                have h0 : List.count x [e.to_] = 0 := by
                  rw [List.count_eq_zero]
                  simp only [List.mem_singleton]
                  exact fun hxx => hx hxx.symm
                omega
              · rw [hq]
            have hpb : pushedB n es d1 x = pushedB n (e :: es) indeg x := by
              unfold pushedB
              rw [hd1, decKey_lookup_ne _ _ _ (fun hxx => hx hxx.symm)]
              rw [cntE_cons, if_neg (fun hc => hx hc.2), zero_add]
            rw [hqc, hpb]
        · obtain ⟨pushes, hp⟩ := hpush
          rcases hq2cases with ⟨h1, hq⟩ | ⟨h1, hq⟩
          · exact ⟨e.to_ :: pushes, by rw [hp, hq]; simp⟩
          · exact ⟨pushes, by rw [hp, hq]⟩
    · have hrw : relaxEdges n (e :: es) indeg queue = relaxEdges n es indeg queue := by
        simp [relaxEdges, hfrom]
      rw [hrw]
      obtain ⟨hkeys, hsome, hnone, hcount, hpush⟩ := ih indeg queue
      refine ⟨hkeys, ?_, hnone, ?_, hpush⟩
      · intro x v h
        rw [hsome x v h, cntE_cons, if_neg (fun hc => hfrom hc.1), zero_add]
      · intro x
        rw [hcount x]
        have hpb : pushedB n (e :: es) indeg x = pushedB n es indeg x := by
          unfold pushedB
          rw [cntE_cons, if_neg (fun hc => hfrom hc.1), zero_add]
        rw [hpb]

theorem relaxEdges_measure (n : String) :
    ∀ (es : List Edge) (indeg : List (String × Int)) (queue : List String),
      (relaxEdges n es indeg queue).2.length + countPos (relaxEdges n es indeg queue).1
        ≤ queue.length + countPos indeg := by
  intro es
  induction es with
  | nil =>
    intro indeg queue
    simp [relaxEdges]
  | cons e es ih =>
    intro indeg queue
    by_cases hfrom : e.from_ = n
    · have hrw : relaxEdges n (e :: es) indeg queue =
          relaxEdges n es (decKey indeg e.to_).1
            (if (decKey indeg e.to_).2 = some 0 then queue ++ [e.to_] else queue) := by
        simp [relaxEdges, hfrom]
      rw [hrw]
      have hkey := decKey_countPos indeg e.to_
      by_cases h0 : (decKey indeg e.to_).2 = some 0
      · rw [if_pos h0]
        rw [if_pos h0] at hkey
        have hih := ih (decKey indeg e.to_).1 (queue ++ [e.to_])
        simp only [List.length_append, List.length_singleton] at hih
        omega
      · rw [if_neg h0]
        rw [if_neg h0] at hkey
        have hih := ih (decKey indeg e.to_).1 queue
        omega
    · have hrw : relaxEdges n (e :: es) indeg queue = relaxEdges n es indeg queue := by
        simp [relaxEdges, hfrom]
      rw [hrw]
      exact ih indeg queue

/-- The fuel chosen by `kahnLoop` is insensitive to surplus: with at least
`queue.length + countPos indeg` fuel the loop result no longer depends on the
fuel, so `kahnLoopF` with that fuel is the JS `while` loop. -/
theorem kahnLoopF_fuel_enough (edges : List Edge) :
    ∀ (fuel : Nat) (queue : List String) (indeg : List (String × Int)) (order : List String),
      queue.length + countPos indeg ≤ fuel →
      kahnLoopF edges (fuel + 1) queue indeg order = kahnLoopF edges fuel queue indeg order := by
  intro fuel
  induction fuel with
  | zero =>
    intro queue indeg order h
    have hq : queue = [] := by
      cases queue with
      | nil => rfl
      | cons a l => simp at h
    subst hq
    rfl
  | succ fuel ih =>
    intro queue indeg order h
    cases queue with
    | nil => rfl
    | cons a l =>
      show kahnLoopF edges (fuel + 2) (a :: l) indeg order =
        kahnLoopF edges (fuel + 1) (a :: l) indeg order
      rw [show kahnLoopF edges (fuel + 2) (a :: l) indeg order =
          kahnLoopF edges (fuel + 1) (relaxEdges a edges indeg l).2
            (relaxEdges a edges indeg l).1 (order ++ [a]) from rfl,
        show kahnLoopF edges (fuel + 1) (a :: l) indeg order =
          kahnLoopF edges fuel (relaxEdges a edges indeg l).2
            (relaxEdges a edges indeg l).1 (order ++ [a]) from rfl]
      apply ih
      have := relaxEdges_measure a edges indeg l
      simp only [List.length_cons] at h
      omega

/-! ### Loop invariant for `topoOrder` -/

/-- The number of edges into `x` whose source has not yet been popped
(the value Kahn's algorithm keeps in `indegree[x]`). -/
def remCnt (edges : List Edge) (order : List String) (x : String) : Nat :=
  (edges.filter (fun e => e.to_ = x ∧ e.from_ ∉ order)).length

theorem remCnt_cons (e : Edge) (es : List Edge) (order : List String) (x : String) :
    remCnt (e :: es) order x =
      (if e.to_ = x ∧ e.from_ ∉ order then 1 else 0) + remCnt es order x := by
  by_cases h : e.to_ = x ∧ e.from_ ∉ order <;> simp [remCnt, List.filter_cons, h] <;> omega

theorem remCnt_split (edges : List Edge) (order : List String) (n x : String)
    (hn : n ∉ order) :
    (remCnt edges order x : Int) = (remCnt edges (order ++ [n]) x : Int) + cntE n edges x := by
  induction edges with
  | nil => simp [remCnt, cntE]
  | cons e es ih =>
    rw [remCnt_cons, remCnt_cons, cntE_cons]
    by_cases h1 : e.to_ = x
    · by_cases h2 : e.from_ = n
      · have h3 : e.from_ ∉ order := by rw [h2]; exact hn
        have hB : ¬ (e.to_ = x ∧ e.from_ ∉ order ++ [n]) := by
          rintro ⟨-, hb⟩
          exact hb (by rw [h2]; exact List.mem_append_right _ (by simp))
        rw [if_pos ⟨h1, h3⟩, if_neg hB, if_pos ⟨h2, h1⟩]
        push_cast
        omega
      · by_cases h3 : e.from_ ∈ order
        · have hA : ¬ (e.to_ = x ∧ e.from_ ∉ order) := fun hc => hc.2 h3
          have hB : ¬ (e.to_ = x ∧ e.from_ ∉ order ++ [n]) :=
            fun hc => hc.2 (List.mem_append_left _ h3)
          have hC : ¬ (e.from_ = n ∧ e.to_ = x) := fun hc => h2 hc.1
          rw [if_neg hA, if_neg hB, if_neg hC]
          push_cast
          omega
        · have hB : e.to_ = x ∧ e.from_ ∉ order ++ [n] := by
            refine ⟨h1, ?_⟩
            rw [List.mem_append, List.mem_singleton]
            rintro (hc | hc)
            · exact h3 hc
            · exact h2 hc
          have hC : ¬ (e.from_ = n ∧ e.to_ = x) := fun hc => h2 hc.1
          rw [if_pos ⟨h1, h3⟩, if_pos hB, if_neg hC]
          push_cast
          omega
    · have hA : ¬ (e.to_ = x ∧ e.from_ ∉ order) := fun hc => h1 hc.1
      have hB : ¬ (e.to_ = x ∧ e.from_ ∉ order ++ [n]) := fun hc => h1 hc.1
      have hC : ¬ (e.from_ = n ∧ e.to_ = x) := fun hc => h1 hc.2
      rw [if_neg hA, if_neg hB, if_neg hC]
      push_cast
      omega

theorem remCnt_nil_order (edges : List Edge) (x : String) :
    remCnt edges [] x = (edges.filter (fun e => e.to_ = x)).length := by
  unfold remCnt
  congr 1
  apply List.filter_congr
  intro a _
  simp

/-- The invariant maintained by the `topoOrder` loop: the indegree map is keyed
by the node ids and holds, for every id, the number of its incoming edges whose
source was not yet popped into `order`; an id has been popped or queued exactly
when that number is 0; popped and queued ids are distinct node ids; and popped
ids already respect all edges between them. -/
structure KahnInv (edges : List Edge) (ids : List String) (queue : List String)
    (indeg : List (String × Int)) (order : List String) : Prop where
  keys : indeg.map Prod.fst = ids
  vals : ∀ x v, alookup indeg x = some v → v = (remCnt edges order x : Int)
  mem0 : ∀ x ∈ ids, ((x ∈ order ∨ x ∈ queue) ↔ remCnt edges order x = 0)
  nodups : (order ++ queue).Nodup
  subids : ∀ x ∈ order ++ queue, x ∈ ids
  before : ∀ e ∈ edges, e.to_ ∈ order →
    e.from_ ∈ order ∧ order.indexOf e.from_ < order.indexOf e.to_

/-- What holds of the list returned by the `topoOrder` loop. -/
structure KahnOut (edges : List Edge) (ids : List String) (res : List String) : Prop where
  nodup : res.Nodup
  sub : ∀ x ∈ res, x ∈ ids
  before : ∀ e ∈ edges, e.to_ ∈ res →
    e.from_ ∈ res ∧ res.indexOf e.from_ < res.indexOf e.to_
  mem : ∀ x ∈ ids, (x ∈ res ↔ remCnt edges res x = 0)

theorem kahnInv_out (edges : List Edge) (ids : List String) (indeg : List (String × Int))
    (order : List String) (h : KahnInv edges ids [] indeg order) :
    KahnOut edges ids order := by
  refine ⟨?_, ?_, h.before, ?_⟩
  · have := h.nodups
    rwa [List.append_nil] at this
  · intro x hx
    exact h.subids x (by rw [List.append_nil]; exact hx)
  · intro x hx
    have := h.mem0 x hx
    simpa using this

theorem kahnInv_step (edges : List Edge) (ids : List String) (n : String)
    (queue : List String) (indeg : List (String × Int)) (order : List String)
    (hinv : KahnInv edges ids (n :: queue) indeg order) :
    KahnInv edges ids (relaxEdges n edges indeg queue).2 (relaxEdges n edges indeg queue).1
      (order ++ [n]) := by
  obtain ⟨hkeys, hvals, hmem0, hnodups, hsubids, hbefore⟩ := hinv
  obtain ⟨rkeys, rsome, rnone, rcount, -⟩ := relaxEdges_spec n edges indeg queue
  have hnd := List.nodup_append.mp hnodups
  have hnorder : n ∉ order := fun hmem => hnd.2.2 hmem (List.mem_cons_self n queue)
  have hnqueue : n ∉ queue := (List.nodup_cons.mp hnd.2.1).1
  have hnids : n ∈ ids := hsubids n (List.mem_append_right _ (List.mem_cons_self n queue))
  have hremn : remCnt edges order n = 0 :=
    (hmem0 n hnids).mp (Or.inr (List.mem_cons_self n queue))
  have hsplit : ∀ x, (remCnt edges order x : Int) =
      (remCnt edges (order ++ [n]) x : Int) + cntE n edges x :=
    fun x => remCnt_split edges order n x hnorder
  have hmemq2 : ∀ x, x ∈ (relaxEdges n edges indeg queue).2 ↔
      x ∈ queue ∨ pushedB n edges indeg x = true := by
    intro x
    rw [← List.count_pos_iff_mem, rcount x]
    by_cases hp : pushedB n edges indeg x
    · rw [if_pos hp]
      constructor
      · intro _
        exact Or.inr hp
      · intro _
        omega
    · rw [if_neg hp, add_zero, List.count_pos_iff_mem]
      constructor
      · exact Or.inl
      · rintro (hq | hpp)
        · exact hq
        · exact absurd hpp hp
  have hpushed_val : ∀ x, pushedB n edges indeg x = true →
      x ∈ ids ∧ 0 < (remCnt edges order x : Int) ∧
        (remCnt edges order x : Int) ≤ cntE n edges x := by
    intro x hp
    unfold pushedB at hp
    cases hlx : alookup indeg x with
    | none =>
      rw [hlx] at hp
      exact absurd hp (by simp)
    | some w =>
      rw [hlx] at hp
      have hw := hvals x w hlx
      have hxids : x ∈ ids := by
        have := alookup_some_mem_keys hlx
        rwa [hkeys] at this
      simp only [decide_eq_true_eq] at hp
      exact ⟨hxids, hw ▸ hp.1, hw ▸ hp.2⟩
  have hpushed_of : ∀ x ∈ ids, 0 < (remCnt edges order x : Int) →
      (remCnt edges order x : Int) ≤ cntE n edges x → pushedB n edges indeg x = true := by
    intro x hx h1 h2
    obtain ⟨w, hw⟩ :=
      alookup_isSome_of_mem_keys (l := indeg) (x := x) (by rw [hkeys]; exact hx)
    have hwv := hvals x w hw
    unfold pushedB
    rw [hw]
    simp only [decide_eq_true_eq]
    exact ⟨hwv ▸ h1, hwv ▸ h2⟩
  refine ⟨rkeys.trans hkeys, ?_, ?_, ?_, ?_, ?_⟩
  · -- vals
    intro x v hv
    have hxk : x ∈ indeg.map Prod.fst := by
      have := alookup_some_mem_keys hv
      rwa [rkeys] at this
    obtain ⟨w, hw⟩ := alookup_isSome_of_mem_keys hxk
    have hvw := rsome x w hw
    have hveq : v = w - cntE n edges x := by
      rw [hv] at hvw
      exact (Option.some_injective _ hvw.symm).symm
    have hwv := hvals x w hw
    have hs := hsplit x
    omega
  · -- mem0
    intro x hx
    rw [hmemq2 x]
    have hs := hsplit x
    have hc0 := cntE_nonneg n edges x
    constructor
    · rintro (ho | hq | hp)
      · rw [List.mem_append, List.mem_singleton] at ho
        have hz : remCnt edges order x = 0 := by
          rcases ho with ho | ho
          · exact (hmem0 x hx).mp (Or.inl ho)
          · rw [ho]
            exact hremn
        omega
      · have hz : remCnt edges order x = 0 :=
          (hmem0 x hx).mp (Or.inr (List.mem_cons_of_mem _ hq))
        omega
      · obtain ⟨-, h1, h2⟩ := hpushed_val x hp
        omega
    · intro h0
      by_cases hz : remCnt edges order x = 0
      · rcases (hmem0 x hx).mpr hz with ho | hq
        · exact Or.inl (List.mem_append_left _ ho)
        · rw [List.mem_cons] at hq
          rcases hq with hq | hq
          · exact Or.inl (List.mem_append_right _ (by rw [hq]; simp))
          · exact Or.inr (Or.inl hq)
      · refine Or.inr (Or.inr (hpushed_of x hx (by omega) (by omega)))
  · -- nodups
    rw [List.nodup_iff_count_le_one]
    intro a
    have hold := List.nodup_iff_count_le_one.mp hnodups a
    rw [List.count_append] at hold
    rw [List.count_append, List.count_append]
    have hrc := rcount a
    by_cases hp : pushedB n edges indeg a
    · obtain ⟨haids, h1, h2⟩ := hpushed_val a hp
      have hnz : ¬ (remCnt edges order a = 0) := by omega
      have hnm : ¬ (a ∈ order ∨ a ∈ n :: queue) := fun hor => hnz ((hmem0 a haids).mp hor)
      have hno : a ∉ order := fun hh => hnm (Or.inl hh)
      have hnq : a ∉ n :: queue := fun hh => hnm (Or.inr hh)
      have hnq' : a ∉ queue := fun hh => hnq (List.mem_cons_of_mem _ hh)
      have hnn : a ∉ [n] := by
        rw [List.mem_singleton]
        intro hh
        exact hnq (by rw [hh]; exact List.mem_cons_self n queue)
      have c1 : List.count a order = 0 := List.count_eq_zero_of_not_mem hno
      have c2 : List.count a queue = 0 := List.count_eq_zero_of_not_mem hnq'
      have c3 : List.count a [n] = 0 := List.count_eq_zero_of_not_mem hnn
      rw [if_pos hp] at hrc
      omega
    · rw [if_neg hp, add_zero] at hrc
      by_cases han : a = n
      · subst han
        rw [List.count_cons_self] at hold
        have c3 : List.count a [a] = 1 := by simp
        have c2 : List.count a queue = 0 := List.count_eq_zero_of_not_mem hnqueue
        omega
      · rw [List.count_cons_of_ne han] at hold
        have c3 : List.count a [n] = 0 := by
          apply List.count_eq_zero_of_not_mem
          rw [List.mem_singleton]
          exact han
        omega
  · -- subids
    intro x hx
    rw [List.mem_append] at hx
    rcases hx with hx | hx
    · rw [List.mem_append, List.mem_singleton] at hx
      rcases hx with hx | hx
      · exact hsubids x (List.mem_append_left _ hx)
      · rw [hx]
        exact hnids
    · rw [hmemq2 x] at hx
      rcases hx with hx | hx
      · exact hsubids x (List.mem_append_right _ (List.mem_cons_of_mem _ hx))
      · exact (hpushed_val x hx).1
  · -- before
    intro e he hto
    rw [List.mem_append, List.mem_singleton] at hto
    rcases hto with hto | hto
    · obtain ⟨hfrom, hlt⟩ := hbefore e he hto
      refine ⟨List.mem_append_left _ hfrom, ?_⟩
      rw [List.indexOf_append_of_mem hfrom, List.indexOf_append_of_mem hto]
      exact hlt
    · have hfrom : e.from_ ∈ order := by
        have hfilter : edges.filter (fun e2 => decide (e2.to_ = n ∧ e2.from_ ∉ order)) = [] := by
          have hz : remCnt edges order n = 0 := hremn
          unfold remCnt at hz
          exact List.length_eq_zero.mp hz
        by_contra hnf
        have hmemf : e ∈ edges.filter (fun e2 => decide (e2.to_ = n ∧ e2.from_ ∉ order)) := by
          rw [List.mem_filter]
          refine ⟨he, ?_⟩
          simp only [decide_eq_true_eq]
          exact ⟨hto, hnf⟩
        rw [hfilter] at hmemf
        exact absurd hmemf (List.not_mem_nil e)
      refine ⟨List.mem_append_left _ hfrom, ?_⟩
      rw [hto, List.indexOf_append_of_mem hfrom, List.indexOf_append_of_not_mem hnorder]
      have h1 : List.indexOf e.from_ order < order.length := List.indexOf_lt_length.mpr hfrom
      have h2 : List.indexOf n [n] = 0 := by simp
      omega

theorem kahnLoopF_spec (edges : List Edge) (ids : List String) :
    ∀ (fuel : Nat) (queue : List String) (indeg : List (String × Int)) (order : List String),
      queue.length + countPos indeg ≤ fuel →
      KahnInv edges ids queue indeg order →
      KahnOut edges ids (kahnLoopF edges fuel queue indeg order) := by
  intro fuel
  induction fuel with
  | zero =>
    intro queue indeg order h hinv
    have hq : queue = [] := by
      cases queue with
      | nil => rfl
      | cons a l => simp at h
    subst hq
    exact kahnInv_out edges ids indeg order hinv
  | succ fuel ih =>
    intro queue indeg order h hinv
    cases queue with
    | nil => exact kahnInv_out edges ids indeg order hinv
    | cons n q =>
      show KahnOut edges ids (kahnLoopF edges fuel (relaxEdges n edges indeg q).2
        (relaxEdges n edges indeg q).1 (order ++ [n]))
      apply ih
      · have := relaxEdges_measure n edges indeg q
        simp only [List.length_cons] at h
        omega
      · exact kahnInv_step edges ids n q indeg order hinv

/-! ### Initial state of the `topoOrder` loop -/

theorem initIndeg_keys (ids : List String) (edges : List Edge) :
    (initIndeg ids edges).map Prod.fst = ids := by
  unfold initIndeg
  have haux : ∀ (es : List Edge) (m : List (String × Int)),
      (es.foldl (fun m e => incKey m e.to_) m).map Prod.fst = m.map Prod.fst := by
    intro es
    induction es with
    | nil => intro m; rfl
    | cons e es ih =>
      intro m
      rw [List.foldl_cons, ih (incKey m e.to_), incKey_keys]
  rw [haux]
  rw [List.map_map]
  have hid : (Prod.fst ∘ fun id : String => (id, (0 : Int))) = id := rfl
  rw [hid, List.map_id]

theorem initIndeg_lookup_mem (ids : List String) (edges : List Edge) (x : String)
    (hx : x ∈ ids) :
    alookup (initIndeg ids edges) x =
      some ((edges.filter (fun e => e.to_ = x)).length : Int) := by
  unfold initIndeg
  have haux : ∀ (es : List Edge) (m : List (String × Int)) (v : Int),
      alookup m x = some v →
      alookup (es.foldl (fun m e => incKey m e.to_) m) x =
        some (v + ((es.filter (fun e => e.to_ = x)).length : Int)) := by
    intro es
    induction es with
    | nil =>
      intro m v h
      simpa using h
    | cons e es ih =>
      intro m v h
      rw [List.foldl_cons]
      by_cases he : e.to_ = x
      · have h1 : alookup (incKey m e.to_) x = some (v + 1) := by
          rw [he]
          exact incKey_lookup_self m x v h
        have := ih (incKey m e.to_) (v + 1) h1
        rw [this, List.filter_cons]
        have hcond : (decide (e.to_ = x)) = true := by simp [he]
        rw [hcond, if_pos rfl]
        congr 1
        rw [List.length_cons]
        push_cast
        omega
      · have h1 : alookup (incKey m e.to_) x = some v :=
          (incKey_lookup_ne m e.to_ x (fun hh => he hh.symm)).trans h
        have := ih (incKey m e.to_) v h1
        rw [this, List.filter_cons]
        simp [he]
  have hbase : alookup (ids.map (fun id => (id, (0 : Int)))) x = some 0 := by
    rw [alookup_map_const, if_pos hx]
  have := haux edges (ids.map (fun id => (id, (0 : Int)))) 0 hbase
  rw [this]
  congr 1
  omega

theorem initIndeg_lookup_not_mem (ids : List String) (edges : List Edge) (x : String)
    (hx : x ∉ ids) : alookup (initIndeg ids edges) x = none := by
  rw [alookup_eq_none_iff, initIndeg_keys]
  exact hx

theorem kahnInv_init (edges : List Edge) (ids : List String) (hids : ids.Nodup) :
    KahnInv edges ids
      (((initIndeg ids edges).map Prod.fst).filter
        (fun id => alookup (initIndeg ids edges) id = some 0))
      (initIndeg ids edges) [] := by
  have hkeys := initIndeg_keys ids edges
  refine ⟨hkeys, ?_, ?_, ?_, ?_, ?_⟩
  · intro x v hv
    have hx : x ∈ ids := by
      have := alookup_some_mem_keys hv
      rwa [hkeys] at this
    rw [initIndeg_lookup_mem ids edges x hx] at hv
    have := Option.some_injective _ hv
    rw [← this, remCnt_nil_order]
  · intro x hx
    constructor
    · rintro (ho | hq)
      · exact absurd ho (List.not_mem_nil x)
      · rw [List.mem_filter] at hq
        have := hq.2
        simp only [decide_eq_true_eq] at this
        rw [initIndeg_lookup_mem ids edges x hx] at this
        have h0 := Option.some_injective _ this
        rw [remCnt_nil_order]
        omega
    · intro h0
      refine Or.inr ?_
      rw [List.mem_filter]
      refine ⟨by rw [hkeys]; exact hx, ?_⟩
      simp only [decide_eq_true_eq]
      rw [initIndeg_lookup_mem ids edges x hx]
      rw [remCnt_nil_order] at h0
      rw [h0]
      simp
  · rw [List.nil_append, hkeys]
    exact hids.filter _
  · intro x hx
    rw [List.nil_append, hkeys] at hx
    exact List.mem_of_mem_filter hx
  · intro e _ hto
    exact absurd hto (List.not_mem_nil _)

/-! ### Correctness of `topoOrder` on acyclic inputs -/

/-- Well-formedness of a node/edge state: node ids are distinct (they are the
keys of the `DAG_STATE.nodes` object) and edges reference existing nodes. -/
def GraphWF (ns : List DagNode) (edges : List Edge) : Prop :=
  (idsOf ns).Nodup ∧ ∀ e ∈ edges, e.from_ ∈ idsOf ns ∧ e.to_ ∈ idsOf ns

theorem topoOrderOn_some_out (ns : List DagNode) (edges : List Edge)
    (hids : (idsOf ns).Nodup) (ord : List String)
    (h : topoOrderOn ns edges = some ord) :
    KahnOut edges (idsOf ns) ord ∧ ord.length = (idsOf ns).length := by
  unfold topoOrderOn at h
  simp only at h
  split at h
  case isTrue hlen =>
    obtain rfl : ord = kahnLoop edges
        (((initIndeg (idsOf ns) edges).map Prod.fst).filter
          (fun id => alookup (initIndeg (idsOf ns) edges) id = some 0))
        (initIndeg (idsOf ns) edges) [] := (Option.some_injective _ h).symm
    refine ⟨?_, hlen⟩
    unfold kahnLoop
    exact kahnLoopF_spec edges (idsOf ns) _ _ _ _ (le_refl _)
      (kahnInv_init edges (idsOf ns) hids)
  case isFalse => exact Option.noConfusion h

theorem topoOrderOn_some_perm (ns : List DagNode) (edges : List Edge)
    (hids : (idsOf ns).Nodup) (ord : List String)
    (h : topoOrderOn ns edges = some ord) : ord.Perm (idsOf ns) := by
  obtain ⟨out, hlen⟩ := topoOrderOn_some_out ns edges hids ord h
  have hsub : ord.Subperm (idsOf ns) := List.subperm_of_subset out.nodup out.sub
  exact hsub.perm_of_length_le (le_of_eq hlen.symm)

theorem topoOrderOn_some_before (ns : List DagNode) (edges : List Edge)
    (hwf : GraphWF ns edges) (ord : List String)
    (h : topoOrderOn ns edges = some ord) :
    ∀ e ∈ edges, e.from_ ∈ ord ∧ e.to_ ∈ ord ∧
      ord.indexOf e.from_ < ord.indexOf e.to_ := by
  obtain ⟨out, hlen⟩ := topoOrderOn_some_out ns edges hwf.1 ord h
  have hperm := topoOrderOn_some_perm ns edges hwf.1 ord h
  intro e he
  have hto : e.to_ ∈ ord := hperm.mem_iff.mpr (hwf.2 e he).2
  obtain ⟨hfrom, hlt⟩ := out.before e he hto
  exact ⟨hfrom, hto, hlt⟩

/-- Nonempty reachability along the directed edges (a path of one or more
edges from the first node to the second). -/
inductive ReachE (edges : List Edge) : String → String → Prop
  | single (e : Edge) (he : e ∈ edges) : ReachE edges e.from_ e.to_
  | tail (e : Edge) (he : e ∈ edges) {a : String} (h : ReachE edges a e.from_) :
      ReachE edges a e.to_

/-- Acyclicity of an edge set: no node reaches itself along a nonempty path. -/
def Acyclic (edges : List Edge) : Prop := ∀ x, ¬ ReachE edges x x

theorem reachE_trans {edges : List Edge} {b c : String} (h2 : ReachE edges b c) :
    ∀ {a : String}, ReachE edges a b → ReachE edges a c := by
  induction h2 with
  | single e he =>
    intro a h1
    exact ReachE.tail e he h1
  | tail e he h ih =>
    intro a h1
    exact ReachE.tail e he (ih h1)

theorem reachE_indexOf_lt (edges : List Edge) (ord : List String)
    (hb : ∀ e ∈ edges, e.from_ ∈ ord ∧ e.to_ ∈ ord ∧
      ord.indexOf e.from_ < ord.indexOf e.to_) :
    ∀ {a b : String}, ReachE edges a b → ord.indexOf a < ord.indexOf b := by
  intro a b h
  induction h with
  | single e he => exact (hb e he).2.2
  | tail e he h ih => exact lt_trans ih (hb e he).2.2

theorem topoOrderOn_acyclic_mem (ns : List DagNode) (edges : List Edge)
    (hwf : GraphWF ns edges) (hacy : Acyclic edges) (res : List String)
    (out : KahnOut edges (idsOf ns) res) :
    ∀ x ∈ idsOf ns, x ∈ res := by
  by_contra hnot
  push_neg at hnot
  obtain ⟨x0, hx0ids, hx0res⟩ := hnot
  have key : ∀ x, x ∈ idsOf ns ∧ x ∉ res →
      ∃ y, (y ∈ idsOf ns ∧ y ∉ res) ∧ ∃ e ∈ edges, e.from_ = y ∧ e.to_ = x := by
    rintro x ⟨hx, hxr⟩
    have hnz : remCnt edges res x ≠ 0 := fun h0 => hxr ((out.mem x hx).mpr h0)
    have hpos : 0 < (edges.filter (fun e => decide (e.to_ = x ∧ e.from_ ∉ res))).length := by
      unfold remCnt at hnz
      omega
    obtain ⟨e, hef⟩ := List.exists_mem_of_length_pos hpos
    rw [List.mem_filter] at hef
    obtain ⟨he, hprop⟩ := hef
    simp only [decide_eq_true_eq] at hprop
    exact ⟨e.from_, ⟨(hwf.2 e he).1, hprop.2⟩, e, he, rfl, hprop.1⟩
  classical
  have key2 : ∀ s : {p : String // p ∈ idsOf ns ∧ p ∉ res},
      ∃ t : {p : String // p ∈ idsOf ns ∧ p ∉ res},
        ∃ e ∈ edges, e.from_ = t.1 ∧ e.to_ = s.1 := by
    rintro ⟨x, hx⟩
    obtain ⟨y, hy, e, he, h1, h2⟩ := key x hx
    exact ⟨⟨y, hy⟩, e, he, h1, h2⟩
  set F : {p : String // p ∈ idsOf ns ∧ p ∉ res} → {p : String // p ∈ idsOf ns ∧ p ∉ res} :=
    fun s => Classical.choose (key2 s) with hFdef
  have hF : ∀ s, ∃ e ∈ edges, e.from_ = (F s).1 ∧ e.to_ = s.1 :=
    fun s => Classical.choose_spec (key2 s)
  set f : ℕ → {p : String // p ∈ idsOf ns ∧ p ∉ res} :=
    fun k => F^[k] ⟨x0, hx0ids, hx0res⟩ with hfdef
  have hstep : ∀ k, ∃ e ∈ edges, e.from_ = (f (k+1)).1 ∧ e.to_ = (f k).1 := by
    intro k
    have hit : f (k+1) = F (f k) := Function.iterate_succ_apply' F k _
    rw [hit]
    exact hF (f k)
  have hreach1 : ∀ k, ReachE edges (f (k+1)).1 (f k).1 := by
    intro k
    obtain ⟨e, he, h1, h2⟩ := hstep k
    have hr := ReachE.single e he
    rw [h1, h2] at hr
    exact hr
  have hreach : ∀ (d i : ℕ), ReachE edges (f (i + d + 1)).1 (f i).1 := by
    intro d
    induction d with
    | zero => intro i; exact hreach1 i
    | succ d ih =>
      intro i
      exact reachE_trans (ih i) (hreach1 (i + d + 1))
  have hmem : ∀ k, (f k).1 ∈ (idsOf ns).toFinset := by
    intro k
    rw [List.mem_toFinset]
    exact (f k).2.1
  obtain ⟨i, j, hij, hgij⟩ :=
    Finite.exists_ne_map_eq_of_infinite (fun k : ℕ => (⟨(f k).1, hmem k⟩ : (idsOf ns).toFinset))
  have hfij : (f i).1 = (f j).1 := by
    have := congrArg Subtype.val hgij
    simpa using this
  rcases Nat.lt_or_ge i j with hlt | hge
  · have hr : ReachE edges (f j).1 (f i).1 := by
      have hr0 := hreach (j - i - 1) i
      have hj : i + (j - i - 1) + 1 = j := by omega
      rw [hj] at hr0
      exact hr0
    rw [← hfij] at hr
    exact hacy _ hr
  · have hlt : j < i := lt_of_le_of_ne hge (fun hh => hij hh.symm)
    have hr : ReachE edges (f i).1 (f j).1 := by
      have hr0 := hreach (i - j - 1) j
      have hj : j + (i - j - 1) + 1 = i := by omega
      rw [hj] at hr0
      exact hr0
    rw [hfij] at hr
    exact hacy _ hr

theorem topoOrderOn_acyclic_isSome (ns : List DagNode) (edges : List Edge)
    (hwf : GraphWF ns edges) (hacy : Acyclic edges) :
    ∃ ord, topoOrderOn ns edges = some ord := by
  have out : KahnOut edges (idsOf ns)
      (kahnLoop edges
        (((initIndeg (idsOf ns) edges).map Prod.fst).filter
          (fun id => alookup (initIndeg (idsOf ns) edges) id = some 0))
        (initIndeg (idsOf ns) edges) []) := by
    unfold kahnLoop
    exact kahnLoopF_spec edges (idsOf ns) _ _ _ _ (le_refl _)
      (kahnInv_init edges (idsOf ns) hwf.1)
  set res := kahnLoop edges
      (((initIndeg (idsOf ns) edges).map Prod.fst).filter
        (fun id => alookup (initIndeg (idsOf ns) edges) id = some 0))
      (initIndeg (idsOf ns) edges) [] with hres
  have hall : ∀ x ∈ idsOf ns, x ∈ res := topoOrderOn_acyclic_mem ns edges hwf hacy res out
  have hlen : res.length = (idsOf ns).length := by
    have h1 : res.length ≤ (idsOf ns).length :=
      (List.subperm_of_subset out.nodup out.sub).length_le
    have h2 : (idsOf ns).length ≤ res.length :=
      (List.subperm_of_subset hwf.1 hall).length_le
    omega
  have hdef : topoOrderOn ns edges = if res.length = (idsOf ns).length then some res else none :=
    rfl
  exact ⟨res, by rw [hdef, if_pos hlen]⟩

theorem topoOrderOn_cycle_none (ns : List DagNode) (edges : List Edge)
    (hwf : GraphWF ns edges) (hcyc : ∃ x, ReachE edges x x) :
    topoOrderOn ns edges = none := by
  obtain ⟨x, hx⟩ := hcyc
  cases h : topoOrderOn ns edges with
  | none => rfl
  | some ord =>
    exfalso
    have hb := topoOrderOn_some_before ns edges hwf ord h
    exact lt_irrefl _ (reachE_indexOf_lt edges ord hb hx)

/-! ### DAG model operations (bulk.js)

State-mutating functions of `bulk.js`, written as pure functions from model
state to model state.  JS object field mutation on a node stored in
`DAG_STATE.nodes` is embedded as an in-place update of the unique list entry
with that id. -/

/-- Update the stored node with the given id in place (JS mutation of the
object held in `DAG_STATE.nodes[id]`). -/
def updateNode (ns : List DagNode) (id : String) (f : DagNode → DagNode) : List DagNode :=
  ns.map (fun n => if n.id = id then f n else n)

/-- `defaultParams(meta)` (bulk.js 107–113): each declared parameter bound to
its default, with `p.default ?? ''` for a missing default. -/
def defaultParams (meta : UnitMeta) : List (String × PVal) :=
  meta.params.map (fun p => (p.key, p.default?.getD (PVal.str (""))))

/-- JS object spread `{...base, ...overrides}`: keys of `base` in order with
overridden values, then override-only keys in their order (keys within each
object are unique). -/
def objMerge (base overrides : List (String × PVal)) : List (String × PVal) :=
  base.map (fun p => (p.1, (alookup overrides p.1).getD p.2)) ++
    overrides.filter (fun p => alookup base p.1 = none)

/-- `ensureNodeDefaults(node)` (bulk.js 115–139): fill missing parameters from
the schema defaults; for a dynamic-branch unit clamp the branch to a declared
one (JS `meta.branches[0]`, i.e. `undefined` when `branches` is empty, embedded
as `""`) and recompute `consumes`/`produces` as the single branch channel
(`'R2'` for branch `"R2"`, `'R1'` otherwise); for other units fill empty
`consumes`/`produces` from the unit metadata. -/
def ensureNodeDefaults (metaMap : List (String × UnitMeta)) (node : DagNode) : DagNode :=
  match alookup metaMap node.unitId with
  | none => node
  | some meta =>
    let params' := node.params ++
      (meta.params.filter (fun p => alookup node.params p.key = none)).map
        (fun p => (p.key, p.default?.getD (PVal.str (""))))
    if meta.dynamicBranch then
      let branch' := if meta.branches.contains node.branch then node.branch
        else meta.branches.headD ("")
      let branchChannel := if branch' = "R2" then "R2" else "R1"
      { node with
        params := params', branch := branch',
        consumes := [branchChannel], produces := [branchChannel] }
    else
      { node with
        params := params',
        consumes := if node.consumes = [] then meta.consumes else node.consumes,
        produces := if node.produces = [] then meta.produces else node.produces }

/-- One `Map.set` step on an `incoming` list whose `node` keys are unique:
replace the entry with the same key in place, else append
(JS `Map` insertion-order semantics). -/
def mapSet (l : List IncomingEntry) (en : IncomingEntry) : List IncomingEntry :=
  if l.any (fun x => x.node = en.node) then
    l.map (fun x => if x.node = en.node then en else x)
  else
    l ++ [en]

/-- `new Map(entries.map(e => [e.node, e]))`: dedupe a list of incoming
entries by `node` key with JS `Map` semantics. -/
def mapFromEntries (l : List IncomingEntry) : List IncomingEntry :=
  l.foldl mapSet []

/-- `connectNodes(fromId, toId)` (bulk.js 238–263): returns the new state and
the JS boolean result.  Rejections (self edge, missing node, duplicate edge,
no accepted inputs, empty channel intersection) leave the state untouched; on
success the edge carrying the `produces`/`consumes` intersection is appended
and the target's `incoming` is updated keyed by source id. -/
def connectNodes (m : DagModel) (fromId toId : String) : DagModel × Bool :=
  if fromId = toId then (m, false)
  else
    match lookupNode m.nodes fromId, lookupNode m.nodes toId with
    | some source, some target =>
      if m.edges.any (fun e => e.from_ = fromId ∧ e.to_ = toId) then (m, false)
      else
        let produced := source.produces
        let targetMeta := alookup m.unitMeta target.unitId
        let consumes := if target.consumes ≠ [] then target.consumes
          else ((targetMeta.map (fun mt => mt.consumes)).getD [])
        if consumes = [] then (m, false)
        else
          let validChannels := produced.filter (fun ch => consumes.contains ch)
          if validChannels = [] then (m, false)
          else
            let newIncoming := mapSet (mapFromEntries target.incoming)
              ⟨fromId, source.label, validChannels⟩
            ({ m with
                edges := m.edges ++ [⟨fromId, toId, validChannels⟩],
                nodes := updateNode m.nodes toId
                  (fun t => { t with incoming := newIncoming }) },
              true)
    | _, _ => (m, false)

/-- JS `a || b` on possibly-missing strings: an empty string is falsy. -/
def jsOrS (a b : Option String) : Option String :=
  match a with
  | some s => if s = "" then b else some s
  | none => b

/-- The branch `addNode` places the new node on:
`branch || meta.branchTarget || meta.branches?.[0] || 'R1'` (bulk.js 158). -/
def addNodeTargetBranch (meta : UnitMeta) (branch : Option String) : String :=
  (jsOrS branch (jsOrS meta.branchTarget (jsOrS meta.branches.head? (some ("R1"))))).getD "R1"

/-- The unit metadata after `addNode`: when the chosen branch is not yet
declared, `meta.branches = Array.from(new Set([...branches, targetBranch]))`
(bulk.js 159–161) mutates the unit's branch list to include it. -/
def addNodeMeta (meta : UnitMeta) (branch : Option String) : UnitMeta :=
  if meta.branches.contains (addNodeTargetBranch meta branch) then meta
  else { meta with
    branches := (meta.branches ++ [addNodeTargetBranch meta branch]).eraseDups }

/-- The `UNIT_META` map after `addNode`'s in-place mutation of the unit's
metadata object. -/
def addNodeUnitMeta (m : DagModel) (unitId : String) (meta : UnitMeta)
    (branch : Option String) : List (String × UnitMeta) :=
  m.unitMeta.map (fun p => if p.1 = unitId then (p.1, addNodeMeta meta branch) else p)

/-- The node record built by `addNode` (bulk.js 166–178), before
`ensureNodeDefaults` normalizes it. -/
def addNodeNewNode (unitId : String) (meta : UnitMeta) (branch : Option String)
    (optParams : List (String × PVal)) (optInputs : List Selection)
    (newId : String) (counter : Nat) : DagNode :=
  { id := newId, unitId := unitId, label := meta.label,
    branch := addNodeTargetBranch meta branch,
    consumes := meta.consumes, produces := meta.produces,
    params := objMerge (defaultParams meta) optParams,
    incoming := [], status := "idle", selectedInputs := optInputs, order := counter }

/-- `addNode(unitId, branch, options)` (bulk.js 155–187).  `newId` is the value
returned by `randomId()` (an external entropy source); `optParams`/`optInputs`
are `options.params`/`options.inputs`.  If the chosen branch is not among the
unit's declared branches, the unit metadata is mutated to include it; the new
node is stored, normalized, and auto-chained from the last existing node on the
same branch when one exists. -/
def addNode (m : DagModel) (unitId : String) (branch : Option String)
    (optParams : List (String × PVal)) (optInputs : List Selection)
    (newId : String) : DagModel :=
  match alookup m.unitMeta unitId with
  | none => m
  | some meta =>
    let targetBranch := addNodeTargetBranch meta branch
    let unitMeta' := addNodeUnitMeta m unitId meta branch
    let existingBranchNodes := m.nodes.filter (fun n => n.branch = targetBranch)
    let newNode := addNodeNewNode unitId meta branch optParams optInputs newId m.nodeCounter
    let nodes1 := if m.nodes.any (fun n => n.id = newId)
      then m.nodes.map (fun n => if n.id = newId then newNode else n)
      else m.nodes ++ [newNode]
    let m1 := { m with
      nodes := nodes1, unitMeta := unitMeta',
      nodeCounter := m.nodeCounter + 1 }
    let m2 := { m1 with nodes := updateNode m1.nodes newId (ensureNodeDefaults unitMeta') }
    match existingBranchNodes.getLast? with
    | none => m2
    | some previous =>
      let m3 := { m2 with
        nodes := updateNode m2.nodes previous.id (ensureNodeDefaults unitMeta') }
      (connectNodes m3 previous.id newId).1

/-- Stable insertion (ascending by `order`): a later element goes after all
strictly smaller ones and before equal ones, as in a stable sort. -/
def insertByOrder (n : DagNode) : List DagNode → List DagNode
  | [] => [n]
  | m :: rest => if m.order < n.order then m :: insertByOrder n rest else n :: m :: rest

/-- JS `Array.prototype.sort((a, b) => (a.order ?? 0) - (b.order ?? 0))`: a
stable ascending sort by `order`, embedded as stable insertion sort (all stable
sorts with this comparator agree). -/
def sortByOrder (l : List DagNode) : List DagNode := l.foldr insertByOrder []

/-- `removeNode(nodeId)` (bulk.js 189–227): compute the same-branch upstream
(last by `order` among incoming) and downstream (first by `order` among
outgoing) of the removed node, delete the node, every touching edge, every
`incoming` entry referencing it, and every channel artifact it produced, then
auto-heal upstream→downstream through `connectNodes` when both exist. -/
def removeNode (m : DagModel) (nodeId : String) : DagModel :=
  let updown : Option DagNode × Option DagNode :=
    match lookupNode m.nodes nodeId with
    | none => (none, none)
    | some target =>
      let branchIncoming := sortByOrder
        ((target.incoming.filterMap (fun entry => lookupNode m.nodes entry.node)).filter
          (fun n => n.branch = target.branch))
      let branchOutgoing := sortByOrder
        (((m.edges.filter (fun e => e.from_ = nodeId)).filterMap
          (fun e => lookupNode m.nodes e.to_)).filter
          (fun n => n.branch = target.branch))
      (branchIncoming.getLast?, branchOutgoing.head?)
  let nodes1 := m.nodes.filter (fun n => ¬ n.id = nodeId)
  let edges1 := m.edges.filter (fun e => ¬ e.from_ = nodeId ∧ ¬ e.to_ = nodeId)
  let nodes2 := nodes1.map
    (fun n => { n with incoming := n.incoming.filter (fun entry => ¬ entry.node = nodeId) })
  let arts1 := m.channelArtifacts.filter (fun p => ¬ p.2.nodeId = nodeId)
  let m1 := { m with nodes := nodes2, edges := edges1, channelArtifacts := arts1 }
  match updown with
  | (some up, some down) =>
    let m2 := { m1 with nodes := updateNode m1.nodes up.id (ensureNodeDefaults m1.unitMeta) }
    let m3 := { m2 with nodes := updateNode m2.nodes down.id (ensureNodeDefaults m2.unitMeta) }
    (connectNodes m3 up.id down.id).1
  | _ => m1

/-- `removeEdge(fromId, toId)` (bulk.js 229–236). -/
def removeEdge (m : DagModel) (fromId toId : String) : DagModel :=
  { m with
    edges := m.edges.filter (fun e => ¬ (e.from_ = fromId ∧ e.to_ = toId)),
    nodes := updateNode m.nodes toId
      (fun t => { t with incoming := t.incoming.filter (fun entry => ¬ entry.node = fromId) }) }

/-- `setNodeStatus(id, status)` (bulk.js 536–541). -/
def setNodeStatus (m : DagModel) (id status : String) : DagModel :=
  { m with nodes := updateNode m.nodes id (fun n => { n with status := status }) }

/-- `resetStatuses()` (bulk.js 543–546). -/
def resetStatuses (m : DagModel) : DagModel :=
  { m with nodes := m.nodes.map (fun n => { n with status := "idle" }) }

/-- JS object assignment `CHANNEL_ARTIFACTS[ch] = v`: replace in place when
the key exists, else append. -/
def aupsert {β : Type} (l : List (String × β)) (k : String) (v : β) : List (String × β) :=
  if l.any (fun p => p.1 = k) then l.map (fun p => if p.1 = k then (k, v) else p)
  else l ++ [(k, v)]

/-- `recordChannelArtifacts(nodeId, currentState)` (bulk.js 548–557): for each
channel the node produces, store the backend's current value when truthy
(a non-empty string). -/
def recordChannelArtifacts (m : DagModel) (nodeId : String)
    (currentState : List (String × String)) : DagModel :=
  match lookupNode m.nodes nodeId with
  | none => m
  | some node =>
    { m with
      channelArtifacts :=
        node.produces.foldl
          (fun arts ch =>
            match alookup currentState ch with
            | some v => if v ≠ "" then aupsert arts ch ⟨nodeId, node.label, v⟩ else arts
            | none => arts)
          m.channelArtifacts }

/-- `validateDagPipeline(dagApi)` (script.js 660–679): not-ok on an empty node
set, not-ok on the `topoOrder` cycle signal, ok otherwise (the rendering of the
ordered step list is display only). -/
def validateDagPipeline (m : DagModel) : Bool :=
  if m.nodes.length = 0 then false
  else
    match topoOrder m with
    | none => false
    | some _ => true

/-! ### Default unit metadata (bulk.js 15–82) -/

def filterseqMeta : UnitMeta :=
  { label := "FilterSeq quality", consumes := ["R1"], produces := ["R1"],
    branches := ["R1", "R2"], dynamicBranch := true,
    params := [⟨"min_quality", some (PVal.num 20)⟩], branchTarget := none }

def maskprimersMeta : UnitMeta :=
  { label := "MaskPrimers score", consumes := ["R1"], produces := ["R1"],
    branches := ["R1", "R2"], dynamicBranch := true,
    params := [⟨"max_error", some (PVal.num (3 / 10))⟩], branchTarget := none }

def pairseqMeta : UnitMeta :=
  { label := "PairSeq", consumes := ["R1", "R2"], produces := ["MERGED"],
    branches := ["MERGED"], dynamicBranch := false,
    params := [⟨"coordinate", some (PVal.str ("sra"))⟩], branchTarget := some ("MERGED") }

def buildconsMeta : UnitMeta :=
  { label := "BuildConsensus", consumes := ["R1"], produces := ["R1"],
    branches := ["R1", "R2"], dynamicBranch := true,
    params := [⟨"min_reads", some (PVal.num 2)⟩], branchTarget := none }

def assemblePairsMeta : UnitMeta :=
  { label := "AssemblePairs sequential", consumes := ["MERGED"], produces := ["MERGED"],
    branches := ["MERGED"], dynamicBranch := false,
    params := [⟨"aligner", some (PVal.str ("blastn"))⟩], branchTarget := some ("MERGED") }

def DEFAULT_UNIT_META : List (String × UnitMeta) :=
  [("filterseq", filterseqMeta), ("maskprimers", maskprimersMeta),
   ("pairseq", pairseqMeta), ("buildcons", buildconsMeta),
   ("assemble_pairs", assemblePairsMeta)]

/-- The module state of `bulk.js` at load time: empty DAG, default unit
metadata, no artifacts, `NODE_COUNTER = 0`. -/
def initialModel : DagModel :=
  { nodes := [], edges := [], unitMeta := DEFAULT_UNIT_META,
    channelArtifacts := [], nodeCounter := 0 }

/-! ### Linear flow model (sc.js)

`FLOW` is an array of `{unitId, label, params}` records; `validateFlow` and
`runFlow` are embedded below.  The external `runUnit` call is an oracle
`outcome : Nat → Bool` giving the success of the run of the step at each list
index (`runUnit` returns `false` both on a backend error response and on a
network error).  The `running` re-entrancy latch guards overlapping clicks and
is not part of a single run's semantics. -/

/-- JS `String.prototype.startsWith`, via the character lists (the builtin
`String.startsWith` does not reduce in the kernel). -/
def jsStartsWith (s p : String) : Bool := p.data.isPrefixOf s.data

structure FlowStep where
  unitId : String
  label : String
  params : List (String × String)
deriving DecidableEq

/-- JS `Array.prototype.findIndex`: the first matching index, `-1` if none. -/
def jsFindIndex {α : Type} (l : List α) (p : α → Bool) : Int :=
  match l.findIdx? p with
  | some i => (i : Int)
  | none => -1

/-- `validateFlow()` (sc.js 306–335): `{ok, msgs}`.  An empty flow is not-ok
with the message `"Empty flow"`; otherwise ordering suggestions are advisory
and only a non-single-cell step makes the result not-ok. -/
def validateFlow (flow : List FlowStep) : Bool × List String :=
  if flow.length = 0 then (false, ["Empty flow"])
  else
    let mergeIndex := jsFindIndex flow (fun s => s.unitId = "sc_merge_samples")
    let msgs1 : List String :=
      if mergeIndex > 0 then
        ["Suggestion: Place \"Merge samples\" first for efficiency (optional)."]
      else []
    let multiHeavyIndex := jsFindIndex flow (fun s => s.unitId = "sc_remove_multi_heavy")
    let noHeavyIndex := jsFindIndex flow (fun s => s.unitId = "sc_remove_no_heavy")
    let msgs2 : List String :=
      if multiHeavyIndex ≠ -1 ∧ noHeavyIndex ≠ -1 ∧ multiHeavyIndex > noHeavyIndex then
        ["Suggestion: Run \"Remove multi heavy\" before \"Remove no heavy\" (optional)."]
      else []
    let nonSC := flow.filter (fun s => ¬ jsStartsWith s.unitId ("sc_") = true)
    let isValid := nonSC.length = 0
    let msgs3 : List String :=
      if ¬ nonSC.length = 0 then
        ["Invalid step detected (non single-cell unit). Please remove it."]
      else []
    (isValid, msgs1 ++ msgs2 ++ msgs3)

/-- The observable outcome of a linear pipeline run: whether the driver got
past its guard, which step indexes had their external run invoked (in order),
the failing index if any, and the final `#pstate` text (`none` when the driver
returned without writing it). -/
structure RunFlowResult where
  validated : Bool
  invoked : List Nat
  failedAt : Option Nat
  pstate : Option String
deriving DecidableEq

/-- The `for` loop of `runFlow` (sc.js 352–366): returns the invoked indexes
and the first failing index, starting at `idx`. -/
def runFlowLoop (outcome : Nat → Bool) : List FlowStep → Nat → List Nat × Option Nat
  | [], _ => ([], none)
  | _ :: rest, idx =>
    if outcome idx then
      let r := runFlowLoop outcome rest (idx + 1)
      (idx :: r.1, r.2)
    else ([idx], some idx)

/-- `runFlow()` (sc.js 337–370): validation gate, then the steps strictly in
list order, halting at the first failing run. -/
def runFlow (flow : List FlowStep) (outcome : Nat → Bool) : RunFlowResult :=
  if (validateFlow flow).1 = false then
    { validated := false, invoked := [], failedAt := none, pstate := none }
  else
    let r := runFlowLoop outcome flow 0
    match r.2 with
    | some i =>
      let lbl := ((flow.get? i).map (fun s => s.label)).getD ""
      { validated := true, invoked := r.1, failedAt := some i,
        pstate := some ("failed at step " ++ toString (i + 1) ++ ": " ++ lbl) }
    | none =>
      { validated := true, invoked := r.1, failedAt := none,
        pstate := some ("finished ✓") }

/-- `runLinearPipeline()` (script.js 739–757): the bulk page's linear driver.
`steps` is `selectedSteps()`; single-cell units are filtered out, an empty
result returns without any run call, and the loop halts at the first failure
(`Failed at <label> (i+1/n)`). -/
def runLinearPipeline (steps : List FlowStep) (outcome : Nat → Bool) : RunFlowResult :=
  let bulkSteps := steps.filter (fun s => ¬ jsStartsWith s.unitId ("sc_") = true)
  if bulkSteps.length = 0 then
    { validated := false, invoked := [], failedAt := none, pstate := none }
  else
    let r := runFlowLoop outcome bulkSteps 0
    match r.2 with
    | some i =>
      let lbl := ((bulkSteps.get? i).map (fun s => s.label)).getD ""
      { validated := true, invoked := r.1, failedAt := some i,
        pstate := some ("Failed at " ++ lbl ++ " (" ++ toString (i + 1) ++ "/"
          ++ toString bulkSteps.length ++ ")") }
    | none =>
      { validated := true, invoked := r.1, failedAt := none,
        pstate := some ("Finished") }

/-! ### DAG execution driver (script.js `runDagPipeline`, 768–907)

The driver schedules every zero-indegree node, keeps the asynchronous `run`
calls of independent nodes in flight simultaneously, and processes each
completion in one event-loop turn.  The embedding makes both external factors
explicit: `outcome : String → Bool` is the success of the backend run of each
node, and `sched : List String` is the order in which in-flight completions
are processed (the promise resolution order).  Display-only work
(`setRunStatus`, progress bars, per-branch counters) and the read of backend
session state passed to `recordChannelArtifacts` are not part of the model
state. -/

/-- `dependents[nodeId]` (script.js 788–795): targets of the edges leaving the
node, in edge order. -/
def depsOf (edges : List Edge) (id : String) : List String :=
  (edges.filter (fun e => e.from_ = id)).map (fun e => e.to_)

/-- `indegree[depId] = Math.max(0, (indegree[depId] ?? 0) - 1)`: saturating
decrement of an existing key, or insertion of `0` for a missing one. -/
def natDecKey (l : List (String × Nat)) (k : String) : List (String × Nat) :=
  if l.any (fun p => p.1 = k) then l.map (fun p => if p.1 = k then (p.1, p.2 - 1) else p)
  else l ++ [(k, 0)]

/-- The bookkeeping state of one `runDagPipeline` invocation. -/
structure RunDagState where
  statuses : List (String × String)
  indegree : List (String × Nat)
  scheduled : List String
  succeeded : List String
  failed : List String
  aborted : Bool
  inFlight : List String
  invoked : List String
  completed : Nat
deriving DecidableEq

/-- `scheduleNode(nodeId)` (script.js 841–878) up to its suspension point:
refuse after an abort, on re-scheduling, on a failed id, or on an unknown id;
otherwise mark the node running and start its `run` call (the node joins
`invoked` and `inFlight`). -/
def scheduleNode (nodes : List DagNode) (st : RunDagState) (nodeId : String) : RunDagState :=
  if st.aborted ∨ st.scheduled.contains nodeId ∨ st.failed.contains nodeId then st
  else
    match lookupNode nodes nodeId with
    | none => st
    | some _ =>
      { st with
        scheduled := st.scheduled ++ [nodeId],
        statuses := aupsert st.statuses nodeId "running",
        inFlight := st.inFlight ++ [nodeId],
        invoked := st.invoked ++ [nodeId] }

/-- The resumption of `scheduleNode`'s async body once the node's `run` call
settles: on success mark it done and relax its dependents, scheduling any that
reach indegree 0 (refused inside `scheduleNode` once `aborted` is set); on
failure mark it failed and set the abort latch. -/
def completeNode (nodes : List DagNode) (edges : List Edge) (outcome : String → Bool)
    (st : RunDagState) (nodeId : String) : RunDagState :=
  let st0 := { st with inFlight := st.inFlight.filter (fun x => ¬ x = nodeId) }
  if outcome nodeId then
    let st1 := { st0 with
      completed := st0.completed + 1,
      succeeded := st0.succeeded ++ [nodeId],
      statuses := aupsert st0.statuses nodeId "done" }
    (depsOf edges nodeId).foldl
      (fun s depId =>
        if s.failed.contains depId then s
        else
          let s1 := { s with indegree := natDecKey s.indegree depId }
          if (alookup s1.indegree depId).getD 0 = 0 then scheduleNode nodes s1 depId else s1)
      st1
  else
    { st0 with
      failed := st0.failed ++ [nodeId],
      aborted := true,
      statuses := aupsert st0.statuses nodeId "error" }

/-- The `while(activePromises.size)` drain: completions are processed in the
order given by `sched`, skipping ids that are not in flight. -/
def drainLoop (nodes : List DagNode) (edges : List Edge) (outcome : String → Bool)
    (sched : List String) (st : RunDagState) : RunDagState :=
  sched.foldl
    (fun s n => if s.inFlight.contains n then completeNode nodes edges outcome s n else s) st

/-- The observable outcome of `runDagPipeline`: whether any node was scheduled,
whether every in-flight call settled (a schedule that strands work models a
backend that never responds), the run-invocation log, the final statuses, the
failed/succeeded sets, and whether the `'DAG pipeline finished'` success path
was reached. -/
structure DagRunResult where
  started : Bool
  drained : Bool
  invoked : List String
  statuses : List (String × String)
  failed : List String
  succeeded : List String
  finishedOk : Bool
deriving DecidableEq

/-- `runDagPipeline()` (script.js 768–907): empty-DAG and cycle guards, status
reset, indegree seeding, concurrent scheduling of the zero-indegree wavefront,
the drain loop, and the final pass that marks every never-run node `blocked`
once any node failed. -/
def runDagPipeline (m : DagModel) (outcome : String → Bool) (sched : List String) :
    DagRunResult :=
  let nodes := m.nodes
  if nodes.length = 0 then
    { started := false, drained := true, invoked := [],
      statuses := nodes.map (fun n => (n.id, n.status)), failed := [], succeeded := [],
      finishedOk := false }
  else
    match topoOrder m with
    | none =>
      { started := false, drained := true, invoked := [],
        statuses := nodes.map (fun n => (n.id, n.status)), failed := [], succeeded := [],
        finishedOk := false }
    | some _ =>
      let statuses0 := nodes.map (fun n => (n.id, "idle"))
      let edges := m.edges
      let indeg0 : List (String × Nat) :=
        nodes.map (fun n => (n.id, (edges.filter (fun e => e.to_ = n.id)).length))
      let ready := (indeg0.filter (fun p => p.2 = 0)).map (fun p => p.1)
      if ready.length = 0 then
        { started := false, drained := true, invoked := [], statuses := statuses0,
          failed := [], succeeded := [], finishedOk := false }
      else
        let st0 : RunDagState :=
          { statuses := statuses0, indegree := indeg0, scheduled := [], succeeded := [],
            failed := [], aborted := false, inFlight := [], invoked := [], completed := 0 }
        let st1 := ready.foldl (scheduleNode nodes) st0
        let st2 := drainLoop nodes edges outcome sched st1
        if st2.inFlight = [] then
          if ¬ st2.failed = [] then
            let statuses' := nodes.foldl
              (fun sts n =>
                if ¬ st2.failed.contains n.id ∧ ¬ st2.succeeded.contains n.id then
                  aupsert sts n.id "blocked"
                else sts)
              st2.statuses
            { started := true, drained := true, invoked := st2.invoked,
              statuses := statuses', failed := st2.failed, succeeded := st2.succeeded,
              finishedOk := false }
          else
            { started := true, drained := true, invoked := st2.invoked,
              statuses := st2.statuses, failed := [], succeeded := st2.succeeded,
              finishedOk := true }
        else
          { started := true, drained := false, invoked := st2.invoked,
            statuses := st2.statuses, failed := st2.failed, succeeded := st2.succeeded,
            finishedOk := false }

/-! ### Helper lemmas about the model operations -/

theorem lookupNode_eq_none_iff (ns : List DagNode) (id : String) :
    lookupNode ns id = none ↔ ∀ n ∈ ns, n.id ≠ id := by
  unfold lookupNode
  rw [List.find?_eq_none]
  constructor
  · intro h n hn
    have := h n hn
    simpa using this
  · intro h n hn
    simpa using h n hn

theorem lookupNode_cons (n : DagNode) (ns : List DagNode) (id : String) :
    lookupNode (n :: ns) id = if n.id = id then some n else lookupNode ns id := by
  by_cases h : n.id = id
  · simp [lookupNode, List.find?_cons_of_pos, h]
  · simp only [lookupNode, if_neg h]
    rw [List.find?_cons_of_neg]
    simp [h]

theorem lookupNode_append (ns ms : List DagNode) (id : String) :
    lookupNode (ns ++ ms) id = (lookupNode ns id).or (lookupNode ms id) := by
  unfold lookupNode
  exact List.find?_append

theorem lookupNode_of_mem_nodup (ns : List DagNode) (n : DagNode)
    (hids : (idsOf ns).Nodup) (hm : n ∈ ns) : lookupNode ns n.id = some n := by
  induction ns with
  | nil => exact absurd hm (List.not_mem_nil n)
  | cons m rest ih =>
    rw [lookupNode_cons]
    rcases List.mem_cons.mp hm with hm | hm
    · rw [hm, if_pos rfl]
    · have hids' : (idsOf rest).Nodup := (List.nodup_cons.mp hids).2
      by_cases hid : m.id = n.id
      · exfalso
        have : m.id ∈ idsOf rest := by
          rw [hid]
          exact List.mem_map_of_mem (fun x => x.id) hm
        exact (List.nodup_cons.mp hids).1 this
      · rw [if_neg hid]
        exact ih hids' hm

theorem lookupNode_updateNode (ns : List DagNode) (id : String) (f : DagNode → DagNode)
    (hf : ∀ n, (f n).id = n.id) (id' : String) :
    lookupNode (updateNode ns id f) id' =
      if id' = id then (lookupNode ns id').map f else lookupNode ns id' := by
  induction ns with
  | nil => by_cases h : id' = id <;> simp [updateNode, lookupNode, h]
  | cons n rest ih =>
    simp only [updateNode, List.map_cons]
    by_cases hn : n.id = id
    · rw [if_pos hn, lookupNode_cons, lookupNode_cons, hf n]
      by_cases h' : id' = id
      · subst h'
        rw [if_pos hn, if_pos hn]
        simp
      · have : ¬ n.id = id' := fun hh => h' (hh.symm.trans hn)
        rw [if_neg this, if_neg this, if_neg h']
        have := ih
        simpa [updateNode, if_neg h'] using this
    · rw [if_neg hn, lookupNode_cons, lookupNode_cons]
      by_cases h' : n.id = id'
      · rw [if_pos h', if_pos h']
        by_cases h2 : id' = id
        · exact absurd (h'.trans h2) hn
        · rw [if_neg h2]
      · rw [if_neg h', if_neg h']
        have := ih
        simpa [updateNode] using this

theorem updateNode_append_fresh (ns : List DagNode) (x : DagNode) (f : DagNode → DagNode)
    (hns : ∀ n ∈ ns, n.id ≠ x.id) :
    updateNode (ns ++ [x]) x.id f = ns ++ [f x] := by
  unfold updateNode
  rw [List.map_append]
  congr 1
  · rw [show List.map (fun n => if n.id = x.id then f n else n) ns = List.map id ns from
      List.map_congr_left (fun n hn => by rw [if_neg (hns n hn)]; rfl), List.map_id]
  · simp

theorem updateNode_append_other (ns : List DagNode) (x : DagNode) (f : DagNode → DagNode)
    (id : String) (hx : ¬ x.id = id) :
    updateNode (ns ++ [x]) id f = updateNode ns id f ++ [x] := by
  unfold updateNode
  rw [List.map_append]
  congr 1
  simp [hx]

theorem idsOf_append (ns ms : List DagNode) : idsOf (ns ++ ms) = idsOf ns ++ idsOf ms := by
  simp [idsOf]

theorem idsOf_updateNode (ns : List DagNode) (id : String) (f : DagNode → DagNode)
    (hf : ∀ n, (f n).id = n.id) : idsOf (updateNode ns id f) = idsOf ns := by
  unfold idsOf updateNode
  rw [List.map_map]
  apply List.map_congr_left
  intro n _
  by_cases h : n.id = id <;> simp [h, hf n]

theorem ensureNodeDefaults_id (mm : List (String × UnitMeta)) (n : DagNode) :
    (ensureNodeDefaults mm n).id = n.id := by
  unfold ensureNodeDefaults
  cases alookup mm n.unitId with
  | none => rfl
  | some meta =>
    by_cases h : meta.dynamicBranch <;> simp [h]

theorem ensureNodeDefaults_branch_of_contains (mm : List (String × UnitMeta)) (n : DagNode)
    (meta : UnitMeta) (hm : alookup mm n.unitId = some meta)
    (hb : n.branch ∈ meta.branches) :
    (ensureNodeDefaults mm n).branch = n.branch := by
  unfold ensureNodeDefaults
  rw [hm]
  by_cases h : meta.dynamicBranch
  · simp [h]
    intro hcon
    exact absurd hb hcon
  · simp [h]

theorem connectNodes_preserves (m : DagModel) (a b : String) :
    (connectNodes m a b).1.unitMeta = m.unitMeta ∧
    (connectNodes m a b).1.channelArtifacts = m.channelArtifacts ∧
    (connectNodes m a b).1.nodeCounter = m.nodeCounter := by
  unfold connectNodes
  dsimp only
  repeat' split
  all_goals exact ⟨rfl, rfl, rfl⟩

theorem mem_eraseDups_loop (x : String) :
    ∀ (as bs : List String), x ∈ List.eraseDups.loop as bs ↔ x ∈ bs.reverse ∨ x ∈ as := by
  intro as
  induction as with
  | nil =>
    intro bs
    simp [List.eraseDups.loop]
  | cons a as ih =>
    intro bs
    by_cases hmem : a ∈ bs
    · rw [show List.eraseDups.loop (a :: as) bs = List.eraseDups.loop as bs by
        simp [List.eraseDups.loop, hmem]]
      rw [ih bs]
      have hxa : x = a → x ∈ bs := fun hh => hh ▸ hmem
      simp only [List.mem_reverse, List.mem_cons]
      tauto
    · rw [show List.eraseDups.loop (a :: as) bs = List.eraseDups.loop as (a :: bs) by
        simp [List.eraseDups.loop, hmem]]
      rw [ih (a :: bs)]
      simp only [List.mem_reverse, List.mem_cons, List.reverse_cons, List.mem_append,
        List.mem_singleton]
      tauto

theorem mem_eraseDups (x : String) (l : List String) : x ∈ l.eraseDups ↔ x ∈ l := by
  unfold List.eraseDups
  rw [mem_eraseDups_loop]
  simp

/-! ### Claims -/

theorem runFlowLoop_spec (outcome : Nat → Bool) :
    ∀ (flow : List FlowStep) (start : Nat),
      ((runFlowLoop outcome flow start).2 = none →
        (runFlowLoop outcome flow start).1 = List.range' start flow.length ∧
        ∀ j, start ≤ j → j < start + flow.length → outcome j = true)
      ∧ (∀ i, (runFlowLoop outcome flow start).2 = some i →
          start ≤ i ∧ i < start + flow.length ∧ outcome i = false ∧
          (∀ j, start ≤ j → j < i → outcome j = true) ∧
          (runFlowLoop outcome flow start).1 = List.range' start (i + 1 - start)) := by
  intro flow
  induction flow with
  | nil =>
    intro start
    constructor
    · intro _
      refine ⟨rfl, ?_⟩
      intro j h1 h2
      simp only [List.length_nil] at h2
      omega
    · intro i hi
      exact absurd hi (by simp [runFlowLoop])
  | cons s rest ih =>
    intro start
    by_cases ho : outcome start
    · have hrw : runFlowLoop outcome (s :: rest) start =
          ((start :: (runFlowLoop outcome rest (start + 1)).1),
            (runFlowLoop outcome rest (start + 1)).2) := by
        simp [runFlowLoop, ho]
      obtain ⟨ihn, ihs⟩ := ih (start + 1)
      rw [hrw]
      constructor
      · intro hn
        obtain ⟨hlist, hout⟩ := ihn hn
        constructor
        · rw [hlist, List.length_cons, List.range'_succ]
        · intro j h1 h2
          simp only [List.length_cons] at h2
          by_cases hj : j = start
          · rw [hj]
            exact ho
          · exact hout j (by omega) (by omega)
      · intro i hi
        obtain ⟨h1, h2, h3, h4, h5⟩ := ihs i hi
        refine ⟨by omega, by simp only [List.length_cons]; omega, h3, ?_, ?_⟩
        · intro j hj1 hj2
          by_cases hj : j = start
          · rw [hj]
            exact ho
          · exact h4 j (by omega) hj2
        · rw [h5]
          have hr : i + 1 - start = (i - start) + 1 := by omega
          have hr2 : i + 1 - (start + 1) = i - start := by omega
          rw [hr, hr2, List.range'_succ]
    · have hrw : runFlowLoop outcome (s :: rest) start = ([start], some start) := by
        simp [runFlowLoop, ho]
      rw [hrw]
      constructor
      · intro hn
        exact absurd hn (by simp)
      · intro i hi
        obtain rfl : start = i := Option.some_injective _ hi
        refine ⟨le_refl _, by simp, by simpa using ho, ?_, ?_⟩
        · intro j h1 h2
          omega
        · have : start + 1 - start = 1 := by omega
          rw [this]
          rfl

/-- C8: validating the empty linear flow returns not-ok with the `"Empty flow"`
message, and `runFlow` on the empty flow returns at its validation gate without
invoking any step run. -/
theorem validateFlow_empty_guard :
    validateFlow [] = (false, ["Empty flow"])
    ∧ ∀ outcome : Nat → Bool, runFlow [] outcome =
        { validated := false, invoked := [], failedAt := none, pstate := none } := by
  exact ⟨rfl, fun _ => rfl⟩

/-- Witness for C8 at a concrete outcome oracle. -/
theorem validateFlow_empty_guard_witness :
    runFlow [] (fun _ => true) =
      { validated := false, invoked := [], failedAt := none, pstate := none } :=
  validateFlow_empty_guard.2 (fun _ => true)

/-- C9: on a validated step list, `runFlow` invokes the external run operation
for steps strictly in list order (the invoked indexes are an initial range);
when step `i` is the first to fail it reports that index (and the failing
label), runs nothing after `i`, and the run finishes successfully exactly when
every step's run succeeds. -/
theorem runFlow_halt_on_first_failure (flow : List FlowStep) (outcome : Nat → Bool)
    (hok : (validateFlow flow).1 = true) :
    (runFlow flow outcome).validated = true
    ∧ (∀ i, (runFlow flow outcome).failedAt = some i →
        i < flow.length ∧ outcome i = false ∧ (∀ j, j < i → outcome j = true) ∧
        (runFlow flow outcome).invoked = List.range (i + 1) ∧
        (runFlow flow outcome).pstate =
          some ("failed at step " ++ toString (i + 1) ++ ": " ++
            (((flow.get? i).map (fun s => s.label)).getD "")))
    ∧ ((runFlow flow outcome).failedAt = none →
        (runFlow flow outcome).invoked = List.range flow.length ∧
        (runFlow flow outcome).pstate = some ("finished ✓"))
    ∧ ((runFlow flow outcome).failedAt = none ↔ ∀ j, j < flow.length → outcome j = true) := by
  have hspec := runFlowLoop_spec outcome flow 0
  have hrw : runFlow flow outcome =
      (match (runFlowLoop outcome flow 0).2 with
      | some i =>
        { validated := true, invoked := (runFlowLoop outcome flow 0).1, failedAt := some i,
          pstate := some ("failed at step " ++ toString (i + 1) ++ ": " ++
            (((flow.get? i).map (fun s => s.label)).getD "")) }
      | none =>
        { validated := true, invoked := (runFlowLoop outcome flow 0).1, failedAt := none,
          pstate := some ("finished ✓") } : RunFlowResult) := by
    unfold runFlow
    rw [hok]
    simp only [Bool.true_eq_false, if_false]
  cases hr2 : (runFlowLoop outcome flow 0).2 with
  | none =>
    obtain ⟨hlist, hout⟩ := hspec.1 hr2
    rw [hrw, hr2]
    refine ⟨rfl, ?_, ?_, ?_⟩
    · intro i hi
      exact Option.noConfusion hi
    · intro _
      refine ⟨?_, rfl⟩
      show (runFlowLoop outcome flow 0).1 = List.range flow.length
      rw [hlist, List.range_eq_range']
    · constructor
      · intro _ j hj
        exact hout j (by omega) (by omega)
      · intro _
        rfl
  | some i =>
    obtain ⟨h1, h2, h3, h4, h5⟩ := hspec.2 i hr2
    rw [hrw, hr2]
    refine ⟨rfl, ?_, ?_, ?_⟩
    · intro i2 hi2
      have hi2' : i = i2 := by
        have hsome : some i = some i2 := hi2
        exact Option.some_injective _ hsome
      subst hi2'
      refine ⟨by omega, h3, fun j hj => h4 j (by omega) hj, ?_, rfl⟩
      show (runFlowLoop outcome flow 0).1 = List.range (i + 1)
      rw [h5, Nat.sub_zero, List.range_eq_range']
    · intro hcon
      exact Option.noConfusion hcon
    · constructor
      · intro hcon
        exact Option.noConfusion hcon
      · intro hall
        exact absurd (hall i (by omega)) (by simp [h3])

/-- Witness for C9: a concrete two-step single-cell flow whose second run
fails; the driver stops at index 1 and reports it. -/
theorem runFlow_halt_on_first_failure_witness :
    (runFlow [⟨"sc_a", "A", []⟩, ⟨"sc_b", "B", []⟩, ⟨"sc_c", "C", []⟩]
        (fun i => if i = 1 then false else true)).invoked = List.range 2
    ∧ (runFlow [⟨"sc_a", "A", []⟩, ⟨"sc_b", "B", []⟩, ⟨"sc_c", "C", []⟩]
        (fun i => if i = 1 then false else true)).failedAt = some 1 := by
  have h := runFlow_halt_on_first_failure
    [⟨"sc_a", "A", []⟩, ⟨"sc_b", "B", []⟩, ⟨"sc_c", "C", []⟩]
    (fun i => if i = 1 then false else true) (by decide)
  have hfa : (runFlow [⟨"sc_a", "A", []⟩, ⟨"sc_b", "B", []⟩, ⟨"sc_c", "C", []⟩]
      (fun i => if i = 1 then false else true)).failedAt = some 1 := by decide
  exact ⟨((h.2.1 1 hfa).2.2.2.1 : _), hfa⟩

/-- A plainly-shaped DAG node for concrete test states (only the fields the
execution and graph operations read are significant). -/
def mkRunNode (id branch ch : String) (ord : Nat) (inc : List IncomingEntry) : DagNode :=
  { id := id, unitId := "filterseq", label := id, branch := branch, consumes := [ch],
    produces := [ch], params := [], incoming := inc, status := "idle",
    selectedInputs := [], order := ord }

/-- The canonical two-branch state of the spec's partial-failure scenario:
branch R1 holds `A1 → A2`, branch R2 holds `B1 → B2`, no edges between the
branches. -/
def twoBranchModel : DagModel :=
  { nodes := [mkRunNode "A1" "R1" "R1" 0 [], mkRunNode "A2" "R1" "R1" 1 [⟨"A1", "A1", ["R1"]⟩],
      mkRunNode "B1" "R2" "R2" 2 [], mkRunNode "B2" "R2" "R2" 3 [⟨"B1", "B1", ["R2"]⟩]],
    edges := [⟨"A1", "A2", ["R1"]⟩, ⟨"B1", "B2", ["R2"]⟩],
    unitMeta := DEFAULT_UNIT_META, channelArtifacts := [], nodeCounter := 4 }

/-- A backend in which the run of `A1` fails and every other run succeeds. -/
def outcomeA1Fails : String → Bool := fun id => if id = "A1" then false else true

/-- A two-node cycle `A → B → A`. -/
def cycleModel : DagModel :=
  { nodes := [mkRunNode "A" "R1" "R1" 0 [⟨"B", "B", ["R1"]⟩],
      mkRunNode "B" "R1" "R1" 1 [⟨"A", "A", ["R1"]⟩]],
    edges := [⟨"A", "B", ["R1"]⟩, ⟨"B", "A", ["R1"]⟩],
    unitMeta := DEFAULT_UNIT_META, channelArtifacts := [], nodeCounter := 2 }

theorem twoBranchModel_acyclic : Acyclic twoBranchModel.edges := by
  have hshape : ∀ y z, ReachE twoBranchModel.edges y z →
      (y = "A1" ∧ z = "A2") ∨ (y = "B1" ∧ z = "B2") := by
    intro y z h
    induction h with
    | single e he =>
      replace he : e ∈ [(⟨"A1", "A2", ["R1"]⟩ : Edge), ⟨"B1", "B2", ["R2"]⟩] := he
      rcases List.mem_cons.mp he with rfl | he2
      · exact Or.inl ⟨rfl, rfl⟩
      · rcases List.mem_cons.mp he2 with rfl | he3
        · exact Or.inr ⟨rfl, rfl⟩
        · exact absurd he3 (List.not_mem_nil e)
    | tail e he h ih =>
      replace he : e ∈ [(⟨"A1", "A2", ["R1"]⟩ : Edge), ⟨"B1", "B2", ["R2"]⟩] := he
      rcases List.mem_cons.mp he with rfl | he2
      · rcases ih with ⟨-, h2⟩ | ⟨-, h2⟩ <;> exact absurd h2 (by decide)
      · rcases List.mem_cons.mp he2 with rfl | he3
        · rcases ih with ⟨-, h2⟩ | ⟨-, h2⟩ <;> exact absurd h2 (by decide)
        · exact absurd he3 (List.not_mem_nil e)
  intro x hx
  rcases hshape x x hx with ⟨h1, h2⟩ | ⟨h1, h2⟩ <;>
    exact absurd (h1.symm.trans h2) (by decide)

/-- C2: on every well-formed node/edge state whose edge set is acyclic,
`topoOrder()` returns a permutation of all node ids in which every edge's
source appears strictly before its target. -/
theorem topoOrder_acyclic_correct (m : DagModel)
    (hwf : GraphWF m.nodes m.edges) (hacy : Acyclic m.edges) :
    ∃ ord, topoOrder m = some ord ∧ ord.Perm (idsOf m.nodes) ∧
      ∀ e ∈ m.edges, e.from_ ∈ ord ∧ e.to_ ∈ ord ∧
        ord.indexOf e.from_ < ord.indexOf e.to_ := by
  obtain ⟨ord, hord⟩ := topoOrderOn_acyclic_isSome m.nodes m.edges hwf hacy
  exact ⟨ord, hord, topoOrderOn_some_perm m.nodes m.edges hwf.1 ord hord,
    topoOrderOn_some_before m.nodes m.edges hwf ord hord⟩

/-- Witness for C2 on the concrete acyclic two-branch state. -/
theorem topoOrder_acyclic_correct_witness :
    ∃ ord, topoOrder twoBranchModel = some ord ∧ ord.Perm (idsOf twoBranchModel.nodes) ∧
      ∀ e ∈ twoBranchModel.edges, e.from_ ∈ ord ∧ e.to_ ∈ ord ∧
        ord.indexOf e.from_ < ord.indexOf e.to_ :=
  topoOrder_acyclic_correct twoBranchModel (by constructor <;> decide) twoBranchModel_acyclic

/-- C3: a cycle among the nodes makes `topoOrder()` return the `none` cycle
signal (it does not throw and returns no partial order), `validateDagPipeline`
reports failure, and `runDagPipeline` returns before invoking any node run. -/
theorem topoOrder_cycle_detected (m : DagModel)
    (hwf : GraphWF m.nodes m.edges) (hcyc : ∃ x, ReachE m.edges x x) :
    topoOrder m = none ∧ validateDagPipeline m = false
    ∧ ∀ (outcome : String → Bool) (sched : List String),
        (runDagPipeline m outcome sched).started = false
        ∧ (runDagPipeline m outcome sched).invoked = [] := by
  have hnone : topoOrder m = none := topoOrderOn_cycle_none m.nodes m.edges hwf hcyc
  refine ⟨hnone, ?_, ?_⟩
  · by_cases h0 : m.nodes.length = 0 <;> simp [validateDagPipeline, hnone, h0]
  · intro outcome sched
    by_cases h0 : m.nodes.length = 0 <;>
      exact ⟨by simp [runDagPipeline, hnone, h0], by simp [runDagPipeline, hnone, h0]⟩

/-- Witness for C3 on the concrete two-node cycle. -/
theorem topoOrder_cycle_detected_witness :
    topoOrder cycleModel = none ∧ validateDagPipeline cycleModel = false
    ∧ (runDagPipeline cycleModel (fun _ => true) ["A", "B"]).invoked = [] := by
  have hcyc : ∃ x, ReachE cycleModel.edges x x := by
    refine ⟨"A", ?_⟩
    have h1 : ReachE cycleModel.edges "A" "B" :=
      ReachE.single (⟨"A", "B", ["R1"]⟩ : Edge) (by decide)
    exact ReachE.tail (⟨"B", "A", ["R1"]⟩ : Edge) (by decide) h1
  have h := topoOrder_cycle_detected cycleModel (by constructor <;> decide) hcyc
  exact ⟨h.1, h.2.1, (h.2.2 (fun _ => true) ["A", "B"]).2⟩

/-- C7 counterexample: `addNode('filterseq', 'X')` on the initial state is
accepted (the dynamic unit's branch list is extended to include `"X"`), and the
normalized node sits on branch `"X"` with `consumes = produces = ["R1"]` —
not `["X"]` — refuting "the single channel equals the branch the node sits
on". -/
theorem ensureNodeDefaults_channel_cex :
    filterseqMeta.dynamicBranch = true
    ∧ ((lookupNode (addNode initialModel "filterseq" (some ("X")) [] [] "n1").nodes "n1").map
        (fun n => n.branch)) = some "X"
    ∧ ((lookupNode (addNode initialModel "filterseq" (some ("X")) [] [] "n1").nodes "n1").map
        (fun n => n.consumes)) = some ["R1"]
    ∧ ((lookupNode (addNode initialModel "filterseq" (some ("X")) [] [] "n1").nodes "n1").map
        (fun n => n.produces)) = some ["R1"]
    ∧ ¬ (["R1"] = ["X"]) := by
  refine ⟨rfl, by decide, by decide, by decide, by decide⟩

theorem ensureNodeDefaults_eq_dyn (mm : List (String × UnitMeta)) (node : DagNode)
    (meta : UnitMeta) (hm : alookup mm node.unitId = some meta)
    (hd : meta.dynamicBranch = true) :
    ensureNodeDefaults mm node =
      { node with
        params := node.params ++
          (meta.params.filter (fun p => alookup node.params p.key = none)).map
            (fun p => (p.key, p.default?.getD (PVal.str ("")))),
        branch := if meta.branches.contains node.branch then node.branch
          else meta.branches.headD (""),
        consumes := [if (if meta.branches.contains node.branch then node.branch
          else meta.branches.headD ("")) = "R2" then "R2" else "R1"],
        produces := [if (if meta.branches.contains node.branch then node.branch
          else meta.branches.headD ("")) = "R2" then "R2" else "R1"] } := by
  unfold ensureNodeDefaults
  rw [hm]
  simp only [hd, if_true]

/-- C7 amended: normalizing a node of a dynamic-branch unit first clamps its
branch to a declared one, then recomputes `consumes` and `produces` as the
single channel `"R2"` when the clamped branch is `"R2"` and `"R1"` for every
other branch; in particular the channel equals the branch exactly when the
branch is `"R1"` or `"R2"`. -/
theorem ensureNodeDefaults_dynamic_channels (mm : List (String × UnitMeta)) (node : DagNode)
    (meta : UnitMeta) (hm : alookup mm node.unitId = some meta)
    (hd : meta.dynamicBranch = true) :
    (ensureNodeDefaults mm node).branch =
        (if meta.branches.contains node.branch then node.branch
          else meta.branches.headD (""))
    ∧ (ensureNodeDefaults mm node).consumes =
        [if (ensureNodeDefaults mm node).branch = "R2" then "R2" else "R1"]
    ∧ (ensureNodeDefaults mm node).produces =
        [if (ensureNodeDefaults mm node).branch = "R2" then "R2" else "R1"]
    ∧ ((ensureNodeDefaults mm node).branch = "R2" ∨ (ensureNodeDefaults mm node).branch = "R1" →
        (ensureNodeDefaults mm node).consumes = [(ensureNodeDefaults mm node).branch]
        ∧ (ensureNodeDefaults mm node).produces = [(ensureNodeDefaults mm node).branch]) := by
  rw [ensureNodeDefaults_eq_dyn mm node meta hm hd]
  refine ⟨rfl, rfl, rfl, ?_⟩
  intro h
  replace h : (if meta.branches.contains node.branch then node.branch
      else meta.branches.headD ("")) = "R2" ∨
      (if meta.branches.contains node.branch then node.branch
      else meta.branches.headD ("")) = "R1" := h
  have hx : (if (if meta.branches.contains node.branch then node.branch
      else meta.branches.headD ("")) = "R2" then "R2" else "R1") =
      (if meta.branches.contains node.branch then node.branch
      else meta.branches.headD ("")) := by
    rcases h with h | h <;> rw [h] <;> simp
  exact ⟨congrArg (fun s => [s]) hx, congrArg (fun s => [s]) hx⟩

/-- Witness for C7 (amended) on a default-meta node sitting on branch R2. -/
theorem ensureNodeDefaults_dynamic_channels_witness :
    (ensureNodeDefaults DEFAULT_UNIT_META (mkRunNode "w" "R2" "R1" 0 [])).consumes
      = [(ensureNodeDefaults DEFAULT_UNIT_META (mkRunNode "w" "R2" "R1" 0 [])).branch]
    ∧ (ensureNodeDefaults DEFAULT_UNIT_META (mkRunNode "w" "R2" "R1" 0 [])).branch = "R2" := by
  have h := ensureNodeDefaults_dynamic_channels DEFAULT_UNIT_META
    (mkRunNode "w" "R2" "R1" 0 []) filterseqMeta (by decide) (by decide)
  refine ⟨(h.2.2.2 ?_).1, ?_⟩
  · exact Or.inl (by rw [h.1]; decide)
  · rw [h.1]
    decide

theorem alookup_filter_pred {β : Type} (l : List (String × β)) (p : String × β → Bool)
    (h : (l.map Prod.fst).Nodup) (c : String) :
    alookup (l.filter p) c =
      match alookup l c with
      | some a => if p (c, a) then some a else none
      | none => none := by
  induction l with
  | nil => simp [alookup]
  | cons q rest ih =>
    obtain ⟨k, a⟩ := q
    have hrest : (rest.map Prod.fst).Nodup := (List.nodup_cons.mp h).2
    by_cases hk : k = c
    · subst hk
      rw [alookup_cons, if_pos rfl, List.filter_cons]
      by_cases hp : p (k, a)
      · rw [if_pos hp, alookup_cons, if_pos rfl]
        exact (if_pos hp).symm
      · rw [if_neg hp]
        have hnone : alookup (rest.filter p) k = none := by
          rw [alookup_eq_none_iff]
          intro hmem
          have hk2 : k ∈ rest.map Prod.fst := by
            obtain ⟨pr, hpr, hpk⟩ := List.mem_map.mp hmem
            exact List.mem_map.mpr ⟨pr, List.mem_of_mem_filter hpr, hpk⟩
          exact (List.nodup_cons.mp h).1 hk2
        rw [hnone]
        exact (if_neg hp).symm
    · rw [alookup_cons, if_neg hk, List.filter_cons]
      by_cases hp : p (k, a)
      · rw [if_pos hp, alookup_cons, if_neg hk]
        exact ih hrest
      · rw [if_neg hp]
        exact ih hrest

theorem removeNode_channelArtifacts_eq (m : DagModel) (nodeId : String) :
    (removeNode m nodeId).channelArtifacts =
      m.channelArtifacts.filter (fun p => ¬ p.2.nodeId = nodeId) := by
  unfold removeNode
  dsimp only
  split
  · rw [(connectNodes_preserves _ _ _).2.1]
  · rfl

/-- C10: `removeNode(n)` deletes exactly the channel-artifact records produced
by `n`: after the call, looking up any channel yields `none` when its record's
`producingNodeId` was `n`, and the unchanged record otherwise. -/
theorem removeNode_artifacts_spec (m : DagModel) (nodeId : String)
    (hkeys : (m.channelArtifacts.map Prod.fst).Nodup) (c : String) :
    alookup (removeNode m nodeId).channelArtifacts c =
      match alookup m.channelArtifacts c with
      | some a => if a.nodeId = nodeId then none else some a
      | none => none := by
  rw [removeNode_channelArtifacts_eq]
  rw [alookup_filter_pred m.channelArtifacts _ hkeys c]
  cases alookup m.channelArtifacts c with
  | none => rfl
  | some a =>
    by_cases han : a.nodeId = nodeId <;> simp [han]

/-- Witness for C10: removing `N1` purges the `R1` record it produced and
leaves the `R2` record produced by `N2` unchanged. -/
theorem removeNode_artifacts_spec_witness :
    alookup (removeNode
      { nodes := [mkRunNode "N1" "R1" "R1" 0 [], mkRunNode "N2" "R2" "R2" 1 []],
        edges := [], unitMeta := DEFAULT_UNIT_META,
        channelArtifacts := [("R1", ⟨"N1", "N1", "f1"⟩), ("R2", ⟨"N2", "N2", "f2"⟩)],
        nodeCounter := 2 } "N1").channelArtifacts "R1" = none
    ∧ alookup (removeNode
      { nodes := [mkRunNode "N1" "R1" "R1" 0 [], mkRunNode "N2" "R2" "R2" 1 []],
        edges := [], unitMeta := DEFAULT_UNIT_META,
        channelArtifacts := [("R1", ⟨"N1", "N1", "f1"⟩), ("R2", ⟨"N2", "N2", "f2"⟩)],
        nodeCounter := 2 } "N1").channelArtifacts "R2" = some ⟨"N2", "N2", "f2"⟩ := by
  constructor
  · rw [removeNode_artifacts_spec _ _ (by decide) _]
    decide
  · rw [removeNode_artifacts_spec _ _ (by decide) _]
    decide

/-- C1 counterexample: in the canonical two-branch instance (`A1 → A2` on R1,
`B1 → B2` on R2, no cross edges) with a backend failing exactly `A1`, when
`A1`'s failure settles before `B1`'s success the driver sets the abort latch,
so although `B1` (already in flight) still completes and reports `done`, `B2`
is never invoked and ends `blocked` — refuting "B1 and B2 are still executed
and, if their runs succeed, both end with status done". -/
theorem runDagPipeline_containment_cex :
    outcomeA1Fails "A1" = false ∧ outcomeA1Fails "B1" = true ∧ outcomeA1Fails "B2" = true
    ∧ (runDagPipeline twoBranchModel outcomeA1Fails ["A1", "B1", "B2"]).drained = true
    ∧ (runDagPipeline twoBranchModel outcomeA1Fails ["A1", "B1", "B2"]).invoked = ["A1", "B1"]
    ∧ alookup (runDagPipeline twoBranchModel outcomeA1Fails ["A1", "B1", "B2"]).statuses "A1"
        = some "error"
    ∧ alookup (runDagPipeline twoBranchModel outcomeA1Fails ["A1", "B1", "B2"]).statuses "A2"
        = some "blocked"
    ∧ alookup (runDagPipeline twoBranchModel outcomeA1Fails ["A1", "B1", "B2"]).statuses "B1"
        = some "done"
    ∧ alookup (runDagPipeline twoBranchModel outcomeA1Fails ["A1", "B1", "B2"]).statuses "B2"
        = some "blocked"
    ∧ ¬ ("B2" ∈ (runDagPipeline twoBranchModel outcomeA1Fails ["A1", "B1", "B2"]).invoked) := by
  decide

/-- C1 amended: on the two-branch instance with only `A1` failing, `A1` is
marked `error` and `A2` is marked `blocked` and never invoked; already-in-flight
`B1` still completes and reports `done`; but after the failure no new node is
scheduled, so `B2` runs and reports `done` exactly when `B1`'s success settles
before `A1`'s failure, and otherwise is never invoked and ends `blocked`;
the driver reports overall success only when no node failed (and does report it
when every run succeeds). -/
theorem runDagPipeline_containment_amended :
    ((runDagPipeline twoBranchModel outcomeA1Fails ["A1", "B1", "B2"]).invoked = ["A1", "B1"]
      ∧ alookup (runDagPipeline twoBranchModel outcomeA1Fails ["A1", "B1", "B2"]).statuses "A1"
          = some "error"
      ∧ alookup (runDagPipeline twoBranchModel outcomeA1Fails ["A1", "B1", "B2"]).statuses "A2"
          = some "blocked"
      ∧ alookup (runDagPipeline twoBranchModel outcomeA1Fails ["A1", "B1", "B2"]).statuses "B1"
          = some "done"
      ∧ alookup (runDagPipeline twoBranchModel outcomeA1Fails ["A1", "B1", "B2"]).statuses "B2"
          = some "blocked"
      ∧ ¬ ("A2" ∈ (runDagPipeline twoBranchModel outcomeA1Fails ["A1", "B1", "B2"]).invoked)
      ∧ (runDagPipeline twoBranchModel outcomeA1Fails ["A1", "B1", "B2"]).finishedOk = false)
    ∧ ((runDagPipeline twoBranchModel outcomeA1Fails ["B1", "B2", "A1"]).invoked
          = ["A1", "B1", "B2"]
      ∧ alookup (runDagPipeline twoBranchModel outcomeA1Fails ["B1", "B2", "A1"]).statuses "A1"
          = some "error"
      ∧ alookup (runDagPipeline twoBranchModel outcomeA1Fails ["B1", "B2", "A1"]).statuses "A2"
          = some "blocked"
      ∧ alookup (runDagPipeline twoBranchModel outcomeA1Fails ["B1", "B2", "A1"]).statuses "B1"
          = some "done"
      ∧ alookup (runDagPipeline twoBranchModel outcomeA1Fails ["B1", "B2", "A1"]).statuses "B2"
          = some "done"
      ∧ ¬ ("A2" ∈ (runDagPipeline twoBranchModel outcomeA1Fails ["B1", "B2", "A1"]).invoked)
      ∧ (runDagPipeline twoBranchModel outcomeA1Fails ["B1", "B2", "A1"]).finishedOk = false)
    ∧ ((runDagPipeline twoBranchModel (fun _ => true) ["A1", "B1", "A2", "B2"]).finishedOk = true
      ∧ (runDagPipeline twoBranchModel (fun _ => true) ["A1", "B1", "A2", "B2"]).invoked
          = ["A1", "B1", "A2", "B2"]
      ∧ alookup (runDagPipeline twoBranchModel (fun _ => true)
          ["A1", "B1", "A2", "B2"]).statuses "A2" = some "done"
      ∧ alookup (runDagPipeline twoBranchModel (fun _ => true)
          ["A1", "B1", "A2", "B2"]).statuses "B2" = some "done") := by
  refine ⟨⟨?_, ?_, ?_, ?_, ?_, ?_, ?_⟩, ⟨?_, ?_, ?_, ?_, ?_, ?_, ?_⟩, ?_, ?_, ?_, ?_⟩ <;> decide

/-- Lookup after a JS in-place property assignment on the metadata map:
mapping `p ↦ (p.1, v)` exactly at key `k` updates the binding of `k` and
nothing else. -/
theorem alookup_map_update {β : Type} (l : List (String × β)) (k : String) (v : β)
    (x : String) :
    alookup (l.map (fun p => if p.1 = k then (p.1, v) else p)) x =
      if x = k then (alookup l x).map (fun _ => v) else alookup l x := by
  induction l with
  | nil =>
    by_cases h : x = k <;> simp [alookup, h]
  | cons p rest ih =>
    obtain ⟨k1, v1⟩ := p
    simp only [List.map_cons]
    by_cases h1 : k1 = k
    · rw [if_pos h1]
      by_cases h2 : x = k
      · rw [if_pos h2, alookup_cons, if_pos (h1.trans h2.symm),
          alookup_cons, if_pos (h1.trans h2.symm)]
        rfl
      · rw [if_neg h2, alookup_cons, if_neg (fun hh : k1 = x => h2 (hh.symm.trans h1)),
          alookup_cons, if_neg (fun hh : k1 = x => h2 (hh.symm.trans h1)), ih, if_neg h2]
    · rw [if_neg h1, alookup_cons, alookup_cons]
      by_cases h3 : k1 = x
      · rw [if_pos h3, if_pos h3, if_neg (fun hh : x = k => h1 (h3.trans hh))]
      · rw [if_neg h3, if_neg h3, ih]

/-- The branch chosen by `addNode` is always declared in the mutated unit
metadata (it is either already declared, or appended by the
`Array.from(new Set([...]))` mutation). -/
theorem mem_addNodeMeta_branches (meta : UnitMeta) (b : Option String) :
    addNodeTargetBranch meta b ∈ (addNodeMeta meta b).branches := by
  unfold addNodeMeta
  by_cases h : meta.branches.contains (addNodeTargetBranch meta b) = true
  · rw [if_pos h]
    simpa using h
  · rw [if_neg h]
    show addNodeTargetBranch meta b ∈
      (meta.branches ++ [addNodeTargetBranch meta b]).eraseDups
    rw [mem_eraseDups]
    exact List.mem_append_right _ (List.mem_singleton.mpr rfl)

/-- Appending a fresh node and then updating it in place: the lookup of the
fresh id finds the updated node. -/
theorem lookupNode_update_append_fresh (ns : List DagNode) (x : DagNode)
    (f : DagNode → DagNode) (id : String) (hid : x.id = id)
    (hf : ∀ n, (f n).id = n.id) (hns : ∀ n ∈ ns, ¬ n.id = id) :
    lookupNode (updateNode (ns ++ [x]) id f) id = some (f x) := by
  subst hid
  rw [updateNode_append_fresh ns x f hns, lookupNode_append,
    (lookupNode_eq_none_iff ns x.id).mpr hns, lookupNode_cons, if_pos (hf x)]
  rfl

/-- An in-place node update that keeps ids and branches keeps every branch
lookup. -/
theorem map_branch_lookupNode_updateNode (ns : List DagNode) (id : String)
    (f : DagNode → DagNode) (hid : ∀ n, (f n).id = n.id)
    (hbr : ∀ n, (f n).branch = n.branch) (c : String) :
    (lookupNode (updateNode ns id f) c).map (fun n => n.branch) =
      (lookupNode ns c).map (fun n => n.branch) := by
  rw [lookupNode_updateNode ns id f hid c]
  by_cases hc : c = id
  · rw [if_pos hc]
    cases lookupNode ns c with
    | none => rfl
    | some n => simp [hbr n]
  · rw [if_neg hc]

/-- `connectNodes` never changes any node's branch: on failure the state is
untouched, on success only the target's `incoming` is rewritten. -/
theorem connectNodes_lookup_branch (m : DagModel) (a b c : String) :
    (lookupNode (connectNodes m a b).1.nodes c).map (fun n => n.branch) =
      (lookupNode m.nodes c).map (fun n => n.branch) := by
  unfold connectNodes
  dsimp only
  repeat' split
  all_goals try rfl
  all_goals dsimp only
  all_goals refine map_branch_lookupNode_updateNode _ _ _ ?_ ?_ c
  all_goals intro n
  all_goals rfl

/-- C5 counterexample: `addNode` performs no branch validation.  The `pairseq`
unit declares only branch `"MERGED"` and carries the fixed
`branchTarget = "MERGED"`, yet an explicit request for branch `"R1"` wins
(`branch || meta.branchTarget || ...`, bulk.js 158): the node is created on
`"R1"`, and instead of rejecting the undeclared branch the unit metadata is
mutated so its declared branches become `["MERGED", "R1"]`. -/
theorem addNode_branch_cex :
    pairseqMeta.branchTarget = some ("MERGED")
    ∧ pairseqMeta.branches = [("MERGED")]
    ∧ ((lookupNode (addNode initialModel "pairseq" (some ("R1")) [] [] "n1").nodes "n1").map
        (fun n => n.branch)) = some ("R1")
    ∧ ((alookup (addNode initialModel "pairseq" (some ("R1")) [] [] "n1").unitMeta
        "pairseq").map (fun mt => mt.branches)) = some [("MERGED"), ("R1")] := by
  refine ⟨rfl, rfl, ?_, ?_⟩ <;> decide

/-- C5 amended: `addNode` validates nothing against the declared branches.
Whenever the metadata map binds `unitId` and `newId` is fresh, the created
node's normalized branch is exactly
`branch || meta.branchTarget || meta.branches[0] || 'R1'` — an explicitly
supplied branch always wins, declared or not — the stored unit metadata is the
mutated `addNodeMeta meta b`, and the chosen branch is declared in that
mutated metadata (appended when missing). -/
theorem addNode_branch_spec (m : DagModel) (unitId : String) (b : Option String)
    (optParams : List (String × PVal)) (optInputs : List Selection) (newId : String)
    (meta : UnitMeta) (hm : alookup m.unitMeta unitId = some meta)
    (hfresh : ∀ n ∈ m.nodes, ¬ n.id = newId) :
    ((lookupNode (addNode m unitId b optParams optInputs newId).nodes newId).map
        (fun n => n.branch)) = some (addNodeTargetBranch meta b)
    ∧ alookup (addNode m unitId b optParams optInputs newId).unitMeta unitId =
        some (addNodeMeta meta b)
    ∧ addNodeTargetBranch meta b ∈ (addNodeMeta meta b).branches := by
  have hum : alookup (addNodeUnitMeta m unitId meta b) unitId = some (addNodeMeta meta b) := by
    unfold addNodeUnitMeta
    rw [alookup_map_update, if_pos rfl, hm]
    rfl
  have hany : (m.nodes.any (fun n => n.id = newId)) = false := by
    rw [List.any_eq_false]
    intro n hn
    simp [hfresh n hn]
  have hbr : (ensureNodeDefaults (addNodeUnitMeta m unitId meta b)
      (addNodeNewNode unitId meta b optParams optInputs newId m.nodeCounter)).branch
      = addNodeTargetBranch meta b := by
    exact ensureNodeDefaults_branch_of_contains
      (addNodeUnitMeta m unitId meta b)
      (addNodeNewNode unitId meta b optParams optInputs newId m.nodeCounter)
      (addNodeMeta meta b) hum (mem_addNodeMeta_branches meta b)
  have hmain : ((lookupNode (addNode m unitId b optParams optInputs newId).nodes newId).map
        (fun n => n.branch)) = some (addNodeTargetBranch meta b)
      ∧ (addNode m unitId b optParams optInputs newId).unitMeta
          = addNodeUnitMeta m unitId meta b := by
    unfold addNode
    rw [hm]
    dsimp only
    simp only [hany, Bool.false_eq_true, if_false]
    cases hlast : (m.nodes.filter (fun n => n.branch = addNodeTargetBranch meta b)).getLast? with
    | none =>
      constructor
      · rw [lookupNode_update_append_fresh m.nodes
            (addNodeNewNode unitId meta b optParams optInputs newId m.nodeCounter)
            (ensureNodeDefaults (addNodeUnitMeta m unitId meta b)) newId rfl
            (ensureNodeDefaults_id _) hfresh]
        exact congrArg some hbr
      · rfl
    | some prev =>
      have hprevmem : prev ∈ m.nodes := by
        obtain ⟨hne, heq⟩ := List.mem_getLast?_eq_getLast (Option.mem_def.mpr hlast)
        have h2 := List.getLast_mem hne
        rw [← heq] at h2
        exact List.mem_of_mem_filter h2
      have hprevne : ¬ newId = prev.id := fun hh => hfresh prev hprevmem hh.symm
      constructor
      · rw [connectNodes_lookup_branch]
        dsimp only
        rw [lookupNode_updateNode _ prev.id _ (fun n => ensureNodeDefaults_id _ n) newId,
          if_neg hprevne,
          lookupNode_update_append_fresh m.nodes
            (addNodeNewNode unitId meta b optParams optInputs newId m.nodeCounter)
            (ensureNodeDefaults (addNodeUnitMeta m unitId meta b)) newId rfl
            (ensureNodeDefaults_id _) hfresh]
        exact congrArg some hbr
      · rw [(connectNodes_preserves _ prev.id newId).1]
  exact ⟨hmain.1, by rw [hmain.2]; exact hum, mem_addNodeMeta_branches meta b⟩

theorem addNode_branch_spec_witness :
    alookup initialModel.unitMeta "pairseq" = some pairseqMeta
    ∧ (((lookupNode (addNode initialModel "pairseq" (some ("R1")) [] [] "n1").nodes "n1").map
          (fun n => n.branch)) = some (addNodeTargetBranch pairseqMeta (some ("R1")))
      ∧ alookup (addNode initialModel "pairseq" (some ("R1")) [] [] "n1").unitMeta "pairseq" =
          some (addNodeMeta pairseqMeta (some ("R1")))
      ∧ addNodeTargetBranch pairseqMeta (some ("R1"))
          ∈ (addNodeMeta pairseqMeta (some ("R1"))).branches) :=
  ⟨by decide,
    addNode_branch_spec initialModel "pairseq" (some ("R1")) [] [] "n1" pairseqMeta
      (by decide) (by intro n hn; exact absurd hn (List.not_mem_nil n))⟩

/-- `incoming.get(key)` on an incoming list: first entry keyed by `k`. -/
def findInc (l : List IncomingEntry) (k : String) : Option IncomingEntry :=
  l.find? (fun e => e.node = k)

/-- The `produces`/`consumes` channel intersection `connectNodes` computes
(bulk.js 252). -/
def interOf (source target : DagNode) : List String :=
  source.produces.filter (fun ch => target.consumes.contains ch)

theorem findInc_cons (e : IncomingEntry) (l : List IncomingEntry) (k : String) :
    findInc (e :: l) k = if e.node = k then some e else findInc l k := by
  by_cases h : e.node = k
  · rw [if_pos h]
    unfold findInc
    rw [List.find?_cons_of_pos]
    simp [h]
  · rw [if_neg h]
    unfold findInc
    rw [List.find?_cons_of_neg]
    simp [h]

theorem mapSet_replace_find_self (l : List IncomingEntry) (en : IncomingEntry)
    (hany : (l.any (fun x => x.node = en.node)) = true) :
    findInc (l.map (fun x => if x.node = en.node then en else x)) en.node = some en := by
  induction l with
  | nil => cases hany
  | cons a l ih =>
    simp only [List.map_cons]
    by_cases ha : a.node = en.node
    · rw [if_pos ha, findInc_cons, if_pos rfl]
    · rw [if_neg ha, findInc_cons, if_neg ha]
      apply ih
      simp only [List.any_cons, Bool.or_eq_true] at hany
      rcases hany with h | h
      · exact absurd (of_decide_eq_true h) ha
      · exact h

theorem mapSet_find_self (l : List IncomingEntry) (en : IncomingEntry) :
    findInc (mapSet l en) en.node = some en := by
  unfold mapSet
  cases hany : (l.any (fun x => x.node = en.node)) with
  | true =>
    rw [if_pos rfl]
    exact mapSet_replace_find_self l en hany
  | false =>
    rw [if_neg Bool.false_ne_true]
    unfold findInc
    rw [List.find?_append]
    have hline : List.find? (fun e => decide (e.node = en.node)) l = none := by
      rw [List.find?_eq_none]
      intro x hx
      exact List.any_eq_false.mp hany x hx
    rw [hline]
    rw [List.find?_cons_of_pos _ (by simp)]
    rfl

theorem mapSet_replace_find_other (l : List IncomingEntry) (en : IncomingEntry) (k : String)
    (hk : ¬ k = en.node) :
    findInc (l.map (fun x => if x.node = en.node then en else x)) k = findInc l k := by
  induction l with
  | nil => rfl
  | cons a l ih =>
    simp only [List.map_cons]
    by_cases ha : a.node = en.node
    · rw [if_pos ha, findInc_cons, findInc_cons,
        if_neg (fun hh : en.node = k => hk hh.symm),
        if_neg (fun hh : a.node = k => hk (hh.symm.trans ha))]
      exact ih
    · rw [if_neg ha, findInc_cons, findInc_cons]
      by_cases hak : a.node = k
      · rw [if_pos hak, if_pos hak]
      · rw [if_neg hak, if_neg hak]
        exact ih

theorem mapSet_find_other (l : List IncomingEntry) (en : IncomingEntry) (k : String)
    (hk : ¬ k = en.node) :
    findInc (mapSet l en) k = findInc l k := by
  unfold mapSet
  cases hany : (l.any (fun x => x.node = en.node)) with
  | true =>
    rw [if_pos rfl]
    exact mapSet_replace_find_other l en k hk
  | false =>
    rw [if_neg Bool.false_ne_true]
    unfold findInc
    rw [List.find?_append]
    rw [List.find?_cons_of_neg _ (fun hpk => hk (of_decide_eq_true hpk).symm)]
    rw [List.find?_nil, Option.or_none]

theorem mapSet_nodup (l : List IncomingEntry) (en : IncomingEntry)
    (hl : (l.map (fun e => e.node)).Nodup) :
    ((mapSet l en).map (fun e => e.node)).Nodup := by
  unfold mapSet
  cases hany : (l.any (fun x => x.node = en.node)) with
  | true =>
    rw [if_pos rfl]
    have hmaps : (l.map (fun x => if x.node = en.node then en else x)).map (fun e => e.node)
        = l.map (fun e => e.node) := by
      rw [List.map_map]
      apply List.map_congr_left
      intro x _
      by_cases hx : x.node = en.node
      · simp [hx]
      · simp [hx]
    rw [hmaps]
    exact hl
  | false =>
    rw [if_neg Bool.false_ne_true, List.map_append, List.nodup_append]
    refine ⟨hl, List.nodup_singleton _, ?_⟩
    intro x hx hx2
    rw [List.map_singleton, List.mem_singleton] at hx2
    rcases List.mem_map.mp hx with ⟨y, hy, hyx⟩
    exact (List.any_eq_false.mp hany y hy) (decide_eq_true (hyx.trans hx2))

theorem foldl_mapSet_of_nodup (l : List IncomingEntry) :
    ∀ acc : List IncomingEntry, ((acc ++ l).map (fun e => e.node)).Nodup →
      l.foldl mapSet acc = acc ++ l := by
  induction l with
  | nil =>
    intro acc _
    rw [List.foldl_nil, List.append_nil]
  | cons a l ih =>
    intro acc h
    rw [List.foldl_cons]
    have hmem : (acc.any (fun x => x.node = a.node)) = false := by
      rw [List.any_eq_false]
      intro x hx hdec
      have hxa : x.node = a.node := of_decide_eq_true hdec
      have h1 : x.node ∈ acc.map (fun e => e.node) := List.mem_map_of_mem _ hx
      have h2 : a.node ∈ (a :: l).map (fun e => e.node) := by simp
      rw [List.map_append, List.nodup_append] at h
      exact h.2.2 (hxa ▸ h1) h2
    have hset : mapSet acc a = acc ++ [a] := by
      unfold mapSet
      rw [hmem, if_neg Bool.false_ne_true]
    rw [hset, ih (acc ++ [a]) (by rw [List.append_assoc, List.singleton_append]; exact h),
      List.append_assoc, List.singleton_append]

theorem mapFromEntries_of_nodup (l : List IncomingEntry)
    (hl : (l.map (fun e => e.node)).Nodup) :
    mapFromEntries l = l := by
  unfold mapFromEntries
  rw [foldl_mapSet_of_nodup l [] (by simpa using hl), List.nil_append]

theorem lookupNode_updateNode_ne (ns : List DagNode) (id : String) (f : DagNode → DagNode)
    (hf : ∀ n, (f n).id = n.id) (c : String) (hc : ¬ c = id) :
    lookupNode (updateNode ns id f) c = lookupNode ns c := by
  rw [lookupNode_updateNode ns id f hf c, if_neg hc]

theorem lookupNode_updateNode_self (ns : List DagNode) (id : String) (f : DagNode → DagNode)
    (hf : ∀ n, (f n).id = n.id) :
    lookupNode (updateNode ns id f) id = (lookupNode ns id).map f := by
  rw [lookupNode_updateNode ns id f hf id, if_pos rfl]

/-- C4: `connectNodes` rejection and atomicity.  On any state whose nodes all
have a non-empty `consumes` (every stored node, being normalized by
`ensureNodeDefaults`, does), `connectNodes fromId toId` (i) leaves the state
completely untouched whenever it reports `false`; (ii) reports `true` exactly
when both endpoints exist, the ids are distinct, no edge with the same
`(from, to)` pair exists, and the source `produces` / target `consumes`
intersection is non-empty; and (iii) on success appends the edge carrying that
intersection, changes no other node, and rewrites the target's `incoming`
keyed by source id: the keys stay duplicate-free, the `fromId` record is
replaced by the fresh one, every other record is untouched. -/
theorem connectNodes_spec (m : DagModel) (fromId toId : String)
    (hcons : ∀ n ∈ m.nodes, ¬ n.consumes = []) :
    ((connectNodes m fromId toId).2 = false → (connectNodes m fromId toId).1 = m)
    ∧ ((connectNodes m fromId toId).2 = true ↔
        ∃ source target, ¬ fromId = toId
          ∧ lookupNode m.nodes fromId = some source
          ∧ lookupNode m.nodes toId = some target
          ∧ (m.edges.any (fun e => e.from_ = fromId ∧ e.to_ = toId)) = false
          ∧ ¬ interOf source target = [])
    ∧ (∀ source target,
        lookupNode m.nodes fromId = some source →
        lookupNode m.nodes toId = some target →
        (connectNodes m fromId toId).2 = true →
        (connectNodes m fromId toId).1.edges
            = m.edges ++ [⟨fromId, toId, interOf source target⟩]
          ∧ (∀ c, ¬ c = toId →
              lookupNode (connectNodes m fromId toId).1.nodes c = lookupNode m.nodes c)
          ∧ ((target.incoming.map (fun e => e.node)).Nodup →
              ∃ inc, lookupNode (connectNodes m fromId toId).1.nodes toId
                  = some { target with incoming := inc }
                ∧ (inc.map (fun e => e.node)).Nodup
                ∧ findInc inc fromId
                    = some ⟨fromId, source.label, interOf source target⟩
                ∧ ∀ k, ¬ k = fromId → findInc inc k = findInc target.incoming k)) := by
  by_cases h1 : fromId = toId
  · have hC : connectNodes m fromId toId = (m, false) := by
      unfold connectNodes
      rw [if_pos h1]
    refine ⟨fun _ => by rw [hC], ?_, ?_⟩
    · constructor
      · intro hfalse
        rw [hC] at hfalse
        exact Bool.noConfusion hfalse
      · rintro ⟨s, t, hne, _⟩
        exact absurd h1 hne
    · intro s t hs2 ht2 htrue
      rw [hC] at htrue
      exact Bool.noConfusion htrue
  · cases hs : lookupNode m.nodes fromId with
    | none =>
      have hC : connectNodes m fromId toId = (m, false) := by
        unfold connectNodes
        rw [if_neg h1, hs]
      refine ⟨fun _ => by rw [hC], ?_, ?_⟩
      · constructor
        · intro hfalse
          rw [hC] at hfalse
          exact Bool.noConfusion hfalse
        · rintro ⟨s, t, _, hs2, _⟩
          exact Option.noConfusion hs2
      · intro s t hs2 ht2 htrue
        exact Option.noConfusion hs2
    | some source =>
      cases ht : lookupNode m.nodes toId with
      | none =>
        have hC : connectNodes m fromId toId = (m, false) := by
          unfold connectNodes
          rw [if_neg h1, hs, ht]
        refine ⟨fun _ => by rw [hC], ?_, ?_⟩
        · constructor
          · intro hfalse
            rw [hC] at hfalse
            exact Bool.noConfusion hfalse
          · rintro ⟨s, t, _, hs2, ht2, _⟩
            exact Option.noConfusion ht2
        · intro s t hs2 ht2 htrue
          exact Option.noConfusion ht2
      | some target =>
        have htmem : target ∈ m.nodes := List.mem_of_find?_eq_some ht
        have hconsne : ¬ target.consumes = [] := hcons target htmem
        cases hdup : (m.edges.any (fun e => e.from_ = fromId ∧ e.to_ = toId)) with
        | true =>
          have hC : connectNodes m fromId toId = (m, false) := by
            unfold connectNodes
            rw [if_neg h1, hs, ht]
            dsimp only
            rw [hdup, if_pos rfl]
          refine ⟨fun _ => by rw [hC], ?_, ?_⟩
          · constructor
            · intro hfalse
              rw [hC] at hfalse
              exact Bool.noConfusion hfalse
            · rintro ⟨s, t, _, hs2, ht2, hdup2, _⟩
              exact Bool.noConfusion hdup2
          · intro s t hs2 ht2 htrue
            rw [hC] at htrue
            exact Bool.noConfusion htrue
        | false =>
          by_cases hint : interOf source target = []
          · have hintf : source.produces.filter (fun ch => target.consumes.contains ch)
                = [] := hint
            have hC : connectNodes m fromId toId = (m, false) := by
              unfold connectNodes
              rw [if_neg h1, hs, ht]
              dsimp only
              rw [hdup, if_neg Bool.false_ne_true, if_pos hconsne, if_neg hconsne,
                hintf, if_pos rfl]
            refine ⟨fun _ => by rw [hC], ?_, ?_⟩
            · constructor
              · intro hfalse
                rw [hC] at hfalse
                exact Bool.noConfusion hfalse
              · rintro ⟨s, t, _, hs2, ht2, _, hint2⟩
                injection hs2 with he1
                injection ht2 with he2
                subst he1
                subst he2
                exact absurd hint hint2
            · intro s t hs2 ht2 htrue
              rw [hC] at htrue
              exact Bool.noConfusion htrue
          · have hintf : ¬ source.produces.filter (fun ch => target.consumes.contains ch)
                = [] := hint
            have hC : connectNodes m fromId toId =
                ({ m with
                    edges := m.edges ++ [⟨fromId, toId, interOf source target⟩],
                    nodes := (updateNode m.nodes toId
                      (fun t => { t with incoming := (mapSet (mapFromEntries target.incoming)
                          ⟨fromId, source.label, interOf source target⟩) })) },
                  true) := by
              unfold connectNodes
              rw [if_neg h1, hs, ht]
              dsimp only
              rw [hdup, if_neg Bool.false_ne_true, if_pos hconsne, if_neg hconsne,
                if_neg hintf]
              rfl
            refine ⟨?_, ?_, ?_⟩
            · intro hfalse
              rw [hC] at hfalse
              exact Bool.noConfusion hfalse
            · constructor
              · intro _
                exact ⟨source, target, h1, rfl, rfl, rfl, hint⟩
              · intro _
                rw [hC]
            · intro s t hs2 ht2 htrue
              injection hs2 with he1
              injection ht2 with he2
              subst he1
              subst he2
              refine ⟨?_, ?_, ?_⟩
              · rw [hC]
              · intro c hc
                rw [hC]
                dsimp only
                refine lookupNode_updateNode_ne _ _ _ ?_ c hc
                intro n
                rfl
              · intro hnodup
                rw [hC]
                dsimp only
                rw [mapFromEntries_of_nodup target.incoming hnodup]
                refine ⟨mapSet target.incoming
                    ⟨fromId, source.label, interOf source target⟩, ?_, ?_, ?_, ?_⟩
                · refine (lookupNode_updateNode_self m.nodes toId _ ?_).trans ?_
                  · intro n
                    rfl
                  · rw [ht]
                    rfl
                · exact mapSet_nodup target.incoming _ hnodup
                · exact mapSet_find_self target.incoming _
                · intro k hk
                  exact mapSet_find_other target.incoming _ k hk

theorem connectNodes_spec_witness :
    (∀ n ∈ twoBranchModel.nodes, ¬ n.consumes = [])
    ∧ (((connectNodes twoBranchModel "A1" "B2").2 = false →
          (connectNodes twoBranchModel "A1" "B2").1 = twoBranchModel)
      ∧ ((connectNodes twoBranchModel "A1" "B2").2 = true ↔
          ∃ source target, ¬ ("A1" : String) = "B2"
            ∧ lookupNode twoBranchModel.nodes "A1" = some source
            ∧ lookupNode twoBranchModel.nodes "B2" = some target
            ∧ (twoBranchModel.edges.any (fun e => e.from_ = "A1" ∧ e.to_ = "B2")) = false
            ∧ ¬ interOf source target = [])
      ∧ (∀ source target,
          lookupNode twoBranchModel.nodes "A1" = some source →
          lookupNode twoBranchModel.nodes "B2" = some target →
          (connectNodes twoBranchModel "A1" "B2").2 = true →
          (connectNodes twoBranchModel "A1" "B2").1.edges
              = twoBranchModel.edges ++ [⟨"A1", "B2", interOf source target⟩]
            ∧ (∀ c, ¬ c = "B2" →
                lookupNode (connectNodes twoBranchModel "A1" "B2").1.nodes c
                  = lookupNode twoBranchModel.nodes c)
            ∧ ((target.incoming.map (fun e => e.node)).Nodup →
                ∃ inc, lookupNode (connectNodes twoBranchModel "A1" "B2").1.nodes "B2"
                    = some { target with incoming := inc }
                  ∧ (inc.map (fun e => e.node)).Nodup
                  ∧ findInc inc "A1"
                      = some ⟨"A1", source.label, interOf source target⟩
                  ∧ ∀ k, ¬ k = "A1" → findInc inc k = findInc target.incoming k))) :=
  ⟨by decide, connectNodes_spec twoBranchModel "A1" "B2" (by decide)⟩

/-- Closed form of a successful `connectNodes` call. -/
theorem connectNodes_eq_success (m : DagModel) (fromId toId : String)
    (source target : DagNode)
    (h1 : ¬ fromId = toId)
    (hs : lookupNode m.nodes fromId = some source)
    (ht : lookupNode m.nodes toId = some target)
    (hdup : (m.edges.any (fun e => e.from_ = fromId ∧ e.to_ = toId)) = false)
    (hconsne : ¬ target.consumes = [])
    (hint : ¬ interOf source target = []) :
    connectNodes m fromId toId =
      ({ m with
          edges := m.edges ++ [⟨fromId, toId, interOf source target⟩],
          nodes := (updateNode m.nodes toId
            (fun t => { t with incoming := (mapSet (mapFromEntries target.incoming)
                ⟨fromId, source.label, interOf source target⟩) })) },
        true) := by
  have hintf : ¬ source.produces.filter (fun ch => target.consumes.contains ch) = [] := hint
  unfold connectNodes
  rw [if_neg h1, hs, ht]
  dsimp only
  rw [hdup, if_neg Bool.false_ne_true, if_pos hconsne, if_neg hconsne, if_neg hintf]
  rfl

/-- C6: auto-chain on the same branch.  Whenever the metadata map binds
`unitId`, `newId` is fresh (as `randomId` ids are), node ids are unique, and
the last existing node `prev` on the target branch is channel-compatible with
the new node after both are normalized against the mutated metadata, `addNode`
appends exactly one edge `prev → newId` carrying the normalized
`produces`/`consumes` intersection, and the new node is stored on the target
branch. -/
theorem addNode_autochain (m : DagModel) (unitId : String) (b : Option String)
    (optParams : List (String × PVal)) (optInputs : List Selection) (newId : String)
    (meta : UnitMeta) (prev : DagNode)
    (hwf : (idsOf m.nodes).Nodup)
    (hm : alookup m.unitMeta unitId = some meta)
    (hfresh : ∀ n ∈ m.nodes, ¬ n.id = newId)
    (hfreshE : ∀ e ∈ m.edges, ¬ e.to_ = newId)
    (hprev : (m.nodes.filter (fun n => n.branch = addNodeTargetBranch meta b)).getLast?
        = some prev)
    (hcompat : ¬ interOf
        (ensureNodeDefaults (addNodeUnitMeta m unitId meta b) prev)
        (ensureNodeDefaults (addNodeUnitMeta m unitId meta b)
          (addNodeNewNode unitId meta b optParams optInputs newId m.nodeCounter)) = []) :
    (addNode m unitId b optParams optInputs newId).edges
        = m.edges ++ [⟨prev.id, newId, interOf
            (ensureNodeDefaults (addNodeUnitMeta m unitId meta b) prev)
            (ensureNodeDefaults (addNodeUnitMeta m unitId meta b)
              (addNodeNewNode unitId meta b optParams optInputs newId m.nodeCounter))⟩]
    ∧ ∃ nd, lookupNode (addNode m unitId b optParams optInputs newId).nodes newId = some nd
        ∧ nd.branch = addNodeTargetBranch meta b := by
  have hprevmem : prev ∈ m.nodes := by
    obtain ⟨hne0, heq⟩ := List.mem_getLast?_eq_getLast (Option.mem_def.mpr hprev)
    have h2 := List.getLast_mem hne0
    rw [← heq] at h2
    exact List.mem_of_mem_filter h2
  have hne : ¬ prev.id = newId := hfresh prev hprevmem
  have hconsne : ¬ (ensureNodeDefaults (addNodeUnitMeta m unitId meta b)
      (addNodeNewNode unitId meta b optParams optInputs newId m.nodeCounter)).consumes
        = [] := by
    intro hc
    apply hcompat
    unfold interOf
    rw [hc]
    refine List.filter_eq_nil_iff.mpr ?_
    intro a _
    simp
  have hany : (m.nodes.any (fun n => n.id = newId)) = false := by
    rw [List.any_eq_false]
    intro n hn
    simp [hfresh n hn]
  have hdupE : (m.edges.any (fun e => e.from_ = prev.id ∧ e.to_ = newId)) = false := by
    rw [List.any_eq_false]
    intro e he
    simp [hfreshE e he]
  have hum : alookup (addNodeUnitMeta m unitId meta b) unitId = some (addNodeMeta meta b) := by
    unfold addNodeUnitMeta
    rw [alookup_map_update, if_pos rfl, hm]
    rfl
  have hbr : (ensureNodeDefaults (addNodeUnitMeta m unitId meta b)
      (addNodeNewNode unitId meta b optParams optInputs newId m.nodeCounter)).branch
      = addNodeTargetBranch meta b :=
    ensureNodeDefaults_branch_of_contains _ _ (addNodeMeta meta b) hum
      (mem_addNodeMeta_branches meta b)
  have htgt2 : lookupNode (updateNode (m.nodes ++
      [addNodeNewNode unitId meta b optParams optInputs newId m.nodeCounter]) newId
      (ensureNodeDefaults (addNodeUnitMeta m unitId meta b))) newId
      = some (ensureNodeDefaults (addNodeUnitMeta m unitId meta b)
          (addNodeNewNode unitId meta b optParams optInputs newId m.nodeCounter)) :=
    lookupNode_update_append_fresh m.nodes _ _ newId rfl (ensureNodeDefaults_id _) hfresh
  have htgt3 : lookupNode (updateNode (updateNode (m.nodes ++
      [addNodeNewNode unitId meta b optParams optInputs newId m.nodeCounter]) newId
      (ensureNodeDefaults (addNodeUnitMeta m unitId meta b))) prev.id
      (ensureNodeDefaults (addNodeUnitMeta m unitId meta b))) newId
      = some (ensureNodeDefaults (addNodeUnitMeta m unitId meta b)
          (addNodeNewNode unitId meta b optParams optInputs newId m.nodeCounter)) :=
    (lookupNode_updateNode_ne _ prev.id
      (ensureNodeDefaults (addNodeUnitMeta m unitId meta b))
      (fun n => ensureNodeDefaults_id _ n) newId (fun hh => hne hh.symm)).trans htgt2
  have hsrc3 : lookupNode (updateNode (updateNode (m.nodes ++
      [addNodeNewNode unitId meta b optParams optInputs newId m.nodeCounter]) newId
      (ensureNodeDefaults (addNodeUnitMeta m unitId meta b))) prev.id
      (ensureNodeDefaults (addNodeUnitMeta m unitId meta b))) prev.id
      = some (ensureNodeDefaults (addNodeUnitMeta m unitId meta b) prev) := by
    rw [lookupNode_updateNode_self _ prev.id
      (ensureNodeDefaults (addNodeUnitMeta m unitId meta b))
      (fun n => ensureNodeDefaults_id _ n)]
    rw [lookupNode_updateNode_ne _ newId
      (ensureNodeDefaults (addNodeUnitMeta m unitId meta b))
      (fun n => ensureNodeDefaults_id _ n) prev.id hne]
    rw [lookupNode_append, lookupNode_of_mem_nodup m.nodes prev hwf hprevmem]
    rfl
  have hC1 : addNode m unitId b optParams optInputs newId =
      (connectNodes
        { m with
            nodes := (updateNode (updateNode (m.nodes ++
              [addNodeNewNode unitId meta b optParams optInputs newId m.nodeCounter]) newId
              (ensureNodeDefaults (addNodeUnitMeta m unitId meta b))) prev.id
              (ensureNodeDefaults (addNodeUnitMeta m unitId meta b))),
            unitMeta := addNodeUnitMeta m unitId meta b,
            nodeCounter := m.nodeCounter + 1 }
        prev.id newId).1 := by
    unfold addNode
    rw [hm]
    dsimp only
    simp only [hany, Bool.false_eq_true, if_false]
    rw [hprev]
  have hC2 := connectNodes_eq_success
      { m with
          nodes := (updateNode (updateNode (m.nodes ++
            [addNodeNewNode unitId meta b optParams optInputs newId m.nodeCounter]) newId
            (ensureNodeDefaults (addNodeUnitMeta m unitId meta b))) prev.id
            (ensureNodeDefaults (addNodeUnitMeta m unitId meta b))),
          unitMeta := addNodeUnitMeta m unitId meta b,
          nodeCounter := m.nodeCounter + 1 }
      prev.id newId
      (ensureNodeDefaults (addNodeUnitMeta m unitId meta b) prev)
      (ensureNodeDefaults (addNodeUnitMeta m unitId meta b)
        (addNodeNewNode unitId meta b optParams optInputs newId m.nodeCounter))
      hne hsrc3 htgt3 hdupE hconsne hcompat
  rw [hC1, hC2]
  constructor
  · rfl
  · dsimp only
    refine ⟨{ (ensureNodeDefaults (addNodeUnitMeta m unitId meta b)
        (addNodeNewNode unitId meta b optParams optInputs newId m.nodeCounter)) with
      incoming := (mapSet (mapFromEntries (ensureNodeDefaults
        (addNodeUnitMeta m unitId meta b)
        (addNodeNewNode unitId meta b optParams optInputs newId m.nodeCounter)).incoming)
        ⟨prev.id, (ensureNodeDefaults (addNodeUnitMeta m unitId meta b) prev).label,
          interOf (ensureNodeDefaults (addNodeUnitMeta m unitId meta b) prev)
            (ensureNodeDefaults (addNodeUnitMeta m unitId meta b)
              (addNodeNewNode unitId meta b optParams optInputs newId m.nodeCounter))⟩) },
      ?_, ?_⟩
    · refine (lookupNode_updateNode_self _ newId
        (fun t => { t with incoming := (mapSet (mapFromEntries (ensureNodeDefaults
          (addNodeUnitMeta m unitId meta b)
          (addNodeNewNode unitId meta b optParams optInputs newId m.nodeCounter)).incoming)
          ⟨prev.id, (ensureNodeDefaults (addNodeUnitMeta m unitId meta b) prev).label,
            interOf (ensureNodeDefaults (addNodeUnitMeta m unitId meta b) prev)
              (ensureNodeDefaults (addNodeUnitMeta m unitId meta b)
                (addNodeNewNode unitId meta b optParams optInputs newId m.nodeCounter))⟩) })
        (fun n => rfl)).trans ?_
      rw [htgt3]
      rfl
    · exact hbr

/-- The state after adding one `filterseq` node on branch `"R1"` to the empty
model. -/
def chainModel1 : DagModel := addNode initialModel "filterseq" (some ("R1")) [] [] "n1"

/-- The stored, normalized form of that first node. -/
def chainPrev : DagNode :=
  { id := "n1", unitId := "filterseq", label := "FilterSeq quality", branch := "R1",
    consumes := ["R1"], produces := ["R1"],
    params := [("min_quality", PVal.num 20)], incoming := [], status := "idle",
    selectedInputs := [], order := 0 }

theorem addNode_autochain_witness :
    (chainModel1.nodes.filter
        (fun n => n.branch = addNodeTargetBranch filterseqMeta (some ("R1")))).getLast?
      = some chainPrev
    ∧ ¬ interOf
        (ensureNodeDefaults (addNodeUnitMeta chainModel1 "filterseq" filterseqMeta
          (some ("R1"))) chainPrev)
        (ensureNodeDefaults (addNodeUnitMeta chainModel1 "filterseq" filterseqMeta
          (some ("R1")))
          (addNodeNewNode "filterseq" filterseqMeta (some ("R1")) [] [] "n2"
            chainModel1.nodeCounter)) = []
    ∧ ((addNode chainModel1 "filterseq" (some ("R1")) [] [] "n2").edges
        = chainModel1.edges ++ [⟨chainPrev.id, "n2", interOf
            (ensureNodeDefaults (addNodeUnitMeta chainModel1 "filterseq" filterseqMeta
              (some ("R1"))) chainPrev)
            (ensureNodeDefaults (addNodeUnitMeta chainModel1 "filterseq" filterseqMeta
              (some ("R1")))
              (addNodeNewNode "filterseq" filterseqMeta (some ("R1")) [] [] "n2"
                chainModel1.nodeCounter))⟩]
      ∧ ∃ nd, lookupNode (addNode chainModel1 "filterseq" (some ("R1")) [] [] "n2").nodes
            "n2" = some nd
          ∧ nd.branch = addNodeTargetBranch filterseqMeta (some ("R1"))) :=
  ⟨by decide, by decide,
    addNode_autochain chainModel1 "filterseq" (some ("R1")) [] [] "n2" filterseqMeta
      chainPrev (by decide) (by decide) (by decide) (by decide) (by decide) (by decide)⟩

end Presto
